import Mathlib

/-!
Shallow embedding of the MLNodeJSParser content-extraction pipeline.

The definitions below are translated from the TypeScript source:
  * `src/unnamed/part_006` — `DocumentExtractor`, `StructuredDataExtractor`,
    helper functions (`normalizeText`, `splitIntoParagraphs`,
    `calculateConfidence`, …);
  * `src/src/parsers/PdfParser.ts` — table heuristics;
  * `src/src/nlp/ZeroShotClassifier.ts` — classifier adapter and analyzer;
  * `src/src/parsers/ParserFactory.ts` — configuration schema;
  * `src/src/exporters/CsvExporter.ts` — CSV serialization.

Strings are modelled as `List Char` internally (with `String` wrappers keeping
the source names).  JavaScript numbers that carry classification scores are
modelled by `ℚ`.  JavaScript regular expressions are modelled by explicit
backtracking matchers which follow ECMAScript leftmost-match, greedy semantics
for the concrete patterns appearing in the source.  Character classes are
expressed via code points (`\w` = ASCII letters, digits, underscore;
`\s` = the ECMAScript whitespace set; case folding is modelled for ASCII).
-/

namespace MLNode

/-- ECMAScript `\s`: tab, LF, VT, FF, CR, space, NBSP, and the Unicode
space/separator code points recognised by the `\s` class. -/
def jsWs (c : Char) : Bool :=
  c.toNat == 9 || c.toNat == 10 || c.toNat == 11 || c.toNat == 12 ||
  c.toNat == 13 || c.toNat == 32 || c.toNat == 160 || c.toNat == 0x1680 ||
  (0x2000 ≤ c.toNat && c.toNat ≤ 0x200a) ||
  c.toNat == 0x2028 || c.toNat == 0x2029 || c.toNat == 0x202f ||
  c.toNat == 0x205f || c.toNat == 0x3000 || c.toNat == 0xfeff

/-- ECMAScript `\w`: `[A-Za-z0-9_]`. -/
def wordChar (c : Char) : Bool :=
  (65 ≤ c.toNat && c.toNat ≤ 90) || (97 ≤ c.toNat && c.toNat ≤ 122) ||
  (48 ≤ c.toNat && c.toNat ≤ 57) || c.toNat == 95

/-- ECMAScript `\d`: `[0-9]`. -/
def digitChar (c : Char) : Bool := 48 ≤ c.toNat && c.toNat ≤ 57

/-- The value-span class `[^;\n]` of the colon pattern (`;` = 59, `\n` = 10). -/
def notSemiNl (c : Char) : Bool := !(c.toNat == 59 || c.toNat == 10)

/-- The value delimiter class `[,;|]` (`,` = 44, `;` = 59, `|` = 124). -/
def delimChar (c : Char) : Bool := c.toNat == 44 || c.toNat == 59 || c.toNat == 124

/-- ASCII case folding, as used by `toLowerCase`/the `i` flag on the ASCII
letters that the matched tokens consist of. -/
def asciiLower (c : Char) : Char :=
  if 65 ≤ c.toNat ∧ c.toNat ≤ 90 then Char.ofNat (c.toNat + 32) else c

/-- JavaScript `String.prototype.trim` (drop leading and trailing `\s`). -/
def jsTrim (l : List Char) : List Char :=
  ((l.dropWhile jsWs).reverse.dropWhile jsWs).reverse

/-- `trim` on `String`. -/
def strTrim (s : String) : String := String.mk (jsTrim s.data)

/-! ### `normalizeText` and `splitIntoParagraphs` (src/unnamed/part_006, utils) -/

/-- `.replace(/\r\n/g, '\n')`. -/
def replCrLf : List Char → List Char
  | '\r' :: '\n' :: rest => '\n' :: replCrLf rest
  | c :: rest => c :: replCrLf rest
  | [] => []

/-- `.replace(/\s+/g, ' ')` as a state machine; the flag records whether the
previous character was whitespace (so the run has already emitted its space). -/
def collapseWs : Bool → List Char → List Char
  | _, [] => []
  | prevWs, c :: cs =>
    if jsWs c then
      if prevWs then collapseWs true cs else ' ' :: collapseWs true cs
    else c :: collapseWs false cs

/-- `normalizeText`: CRLF → LF, CR → LF, TAB → space, whitespace runs → one
space, then trim. -/
def normalizeText (s : String) : String :=
  String.mk (jsTrim (collapseWs false
    (((replCrLf s.data).map (fun c => if c = '\r' then '\n' else c)).map
      (fun c => if c = '\t' then ' ' else c))))

/-- `.split(/\n\n+/)` with the usual fuel wrapper (the separator is a maximal
run of at least two line feeds). -/
def splitParasF : Nat → List Char → List (List Char)
  | 0, l => [l]
  | fuel + 1, cs =>
    match cs with
    | [] => [[]]
    | c :: cs2 =>
      if c = '\n' ∧ cs2.head? = some '\n' then
        [] :: splitParasF fuel ((cs2.dropWhile (fun x => x = '\n')))
      else (splitParasF fuel cs2).modifyHead (c :: ·)

/-- `splitIntoParagraphs`: split on runs of two-or-more line feeds, trim each
piece, drop empty pieces. -/
def splitIntoParagraphs (text : String) : List String :=
  (((splitParasF (text.data.length + 1) text.data).map jsTrim).filter
    (· ≠ [])).map String.mk

/-! ### `calculateConfidence` (src/unnamed/part_006, utils) -/

/-- `Math.round(x * 100) / 100` (round half toward positive infinity). -/
def round2 (q : ℚ) : ℚ := (Int.floor (q * 100 + 1 / 2) : ℚ) / 100

/-- `calculateConfidence(text, classificationScore)`. -/
def calculateConfidence (text : String) (classificationScore : ℚ) : ℚ :=
  let c1 := if 100 < text.length then min 1 (classificationScore + 1 / 20)
            else classificationScore
  let c2 := if text.length < 20 then max 0 (c1 - 1 / 10) else c1
  round2 c2

/-! ### The colon pattern `/(\w+(?:\s+\w+)*)\s*:\s*([^;\n]+)/gi`

The matcher realises ECMAScript backtracking semantics for this pattern.
`\w+`, the inner `\s+`/`\w+` and the `\s*` before the colon admit no useful
backtracking (shorter attempts leave a character the next pattern atom cannot
match), so they are maximal; the star `(?:\s+\w+)*` and the `\s*` after the
colon are greedy with backtracking, realised by preferring the longer attempt
and falling back on failure. -/

/-- Match `\s*[^;\n]+` after the colon: greedily consume whitespace, fall back
to starting the value span on a whitespace character when nothing matchable
follows.  Returns (group 2, rest). -/
def afterColon : List Char → Option (List Char × List Char)
  | [] => none
  | c :: cs =>
    if jsWs c then
      match afterColon cs with
      | some r => some r
      | none =>
        if notSemiNl c then
          some ((c :: cs).takeWhile notSemiNl, (c :: cs).dropWhile notSemiNl)
        else none
    else
      if notSemiNl c then
        some ((c :: cs).takeWhile notSemiNl, (c :: cs).dropWhile notSemiNl)
      else none

/-- Match `\s*:` then `afterColon`.  Returns ([], group 2, rest); the first
component is the label extension (none is added here).  The `\s*` before the
colon admits no backtracking: stopping early leaves a whitespace character
where the colon is required. -/
def endStar (cs : List Char) : Option (List Char × List Char × List Char) :=
  if (cs.dropWhile jsWs).head? = some ':' then
    (afterColon (cs.dropWhile jsWs).tail).map (fun p => ([], p.1, p.2))
  else none

/-- Greedy `(?:\s+\w+)*` followed by `\s*:\s*[^;\n]+`: prefer one more star
iteration, fall back to closing the label.  Returns
(label extension, group 2, rest). -/
def starThenF : Nat → List Char → Option (List Char × List Char × List Char)
  | 0, _ => none
  | fuel + 1, cs =>
    let s := cs.takeWhile jsWs
    let r1 := cs.dropWhile jsWs
    let w := r1.takeWhile wordChar
    let r2 := r1.dropWhile wordChar
    if s ≠ [] ∧ w ≠ [] then
      match starThenF fuel r2 with
      | some (ext, g2, rest) => some (s ++ w ++ ext, g2, rest)
      | none => endStar cs
    else endStar cs

/-- Try the whole pattern at the current position.  Returns
(group 1, group 2, rest-after-match). -/
def matchFrom (cs : List Char) : Option (List Char × List Char × List Char) :=
  let w := cs.takeWhile wordChar
  if w = [] then none
  else
    match starThenF (cs.length + 1) (cs.dropWhile wordChar) with
    | some (ext, g2, rest) => some (w ++ ext, g2, rest)
    | none => none

/-- Leftmost match: try each start position in order, as `exec` does.  Returns
(suffix at the match start, group 1, group 2, rest-after-match). -/
def findMatch : List Char → Option (List Char × List Char × List Char × List Char)
  | [] => none
  | c :: cs =>
    match matchFrom (c :: cs) with
    | some (label, g2, rest) => some (c :: cs, label, g2, rest)
    | none => findMatch cs

/-! ### `StructuredDataExtractor` (src/unnamed/part_006) -/

/-- `text.split(/[,;|]/)` (single-character class, empties kept). -/
def splitDelim : List Char → List (List Char)
  | [] => [[]]
  | c :: cs =>
    if delimChar c then [] :: splitDelim cs
    else (splitDelim cs).modifyHead (c :: ·)

/-- Tail of the separator `\s+(?:and|or)\s+`: the trailing `\s+`. -/
def sepTail (r : List Char) : Option (List Char) :=
  if r.takeWhile jsWs = [] then none else some (r.dropWhile jsWs)

/-- Match the separator `\s+(?:and|or)\s+` (case-insensitive) at the current
position, returning the rest after the separator. -/
def sepMatch (cs : List Char) : Option (List Char) :=
  if cs.takeWhile jsWs = [] then none
  else
    match cs.dropWhile jsWs with
    | a :: b :: c :: r =>
      if asciiLower a = 'a' ∧ asciiLower b = 'n' ∧ asciiLower c = 'd' then
        sepTail r
      else if asciiLower a = 'o' ∧ asciiLower b = 'r' then sepTail (c :: r)
      else none
    | _ => none

/-- `text.split(/\s+(?:and|or)\s+/i)`: scan left to right for separator
matches. -/
def andOrSplitF : Nat → List Char → List (List Char)
  | 0, l => [l]
  | fuel + 1, cs =>
    match cs with
    | [] => [[]]
    | c :: cs2 =>
      match sepMatch (c :: cs2) with
      | some rest => [] :: andOrSplitF fuel rest
      | none => (andOrSplitF fuel cs2).modifyHead (c :: ·)

/-- `text.split(/\s+(?:and|or)\s+/i)` with sufficient fuel. -/
def andOrSplit (l : List Char) : List (List Char) := andOrSplitF (l.length + 1) l

/-- `splitValues` (list level): split on `[,;|]` and trim; if that produced a
single piece, split the original text on "and"/"or" instead; finally drop
empty values. -/
def splitValuesL (text : List Char) : List (List Char) :=
  let values := (splitDelim text).map jsTrim
  let values2 := if values.length = 1 then (andOrSplit text).map jsTrim
                 else values
  values2.filter (· ≠ [])

/-- `StructuredDataExtractor.splitValues`. -/
def splitValues (text : String) : List String :=
  (splitValuesL text.data).map String.mk

/-- One detected `key: values` occurrence. -/
structure StructuredField where
  key : String
  values : List String
  rawText : String
  deriving DecidableEq, Repr

/-- The `while ((match = colonPattern.exec(text)) !== null)` loop of
`extractFields`: find the next match, split its value span, record the field
when at least one value survives, continue after the match. -/
def extractLoopF : Nat → List Char → List StructuredField
  | 0, _ => []
  | fuel + 1, cs =>
    match findMatch cs with
    | none => []
    | some (start, label, g2, rest) =>
      let values := splitValuesL (jsTrim g2)
      (if values ≠ [] then
        [{ key := String.mk (jsTrim label),
           values := values.map String.mk,
           rawText := String.mk (start.take (start.length - rest.length)) }]
       else []) ++ extractLoopF fuel rest

/-- `StructuredDataExtractor.extractFields`. -/
def extractFields (text : String) : List StructuredField :=
  extractLoopF (text.data.length + 1) text.data

/-- The per-field step of `mergeFields`: accumulate unique values onto an
existing key, preserving first-seen order. -/
def addUnique (existing vs : List String) : List String :=
  vs.foldl (fun acc v => if v ∈ acc then acc else acc ++ [v]) existing

/-- One field of the `mergeFields` loop: merge into the entry with the same
key (in place), or append a fresh entry. -/
def mergeStep (m : List (String × List String)) (f : StructuredField) :
    List (String × List String) :=
  if (m.map Prod.fst).contains f.key then
    m.map (fun e => if e.1 = f.key then (e.1, addUnique e.2 f.values) else e)
  else m ++ [(f.key, f.values)]

/-- `StructuredDataExtractor.mergeFields`; the insertion-ordered `Map` is an
association list. -/
def mergeFields (fields : List StructuredField) : List (String × List String) :=
  fields.foldl mergeStep []

/-- `merged.get(key)` on the association list. -/
def assocGet (m : List (String × List String)) (k : String) : List String :=
  match m.find? (fun e => e.1 == k) with
  | some e => e.2
  | none => []

/-- `StructuredDataExtractor.toFlatStructure`; a row object with string keys
is an insertion-ordered list of (key, cell) pairs. -/
def toFlatStructure (fields : List StructuredField) :
    List (List (String × String)) :=
  if fields = [] then []
  else
    let merged := mergeFields fields
    let keys := merged.map Prod.fst
    let maxValues := (merged.map (fun e => e.2.length)).foldl max 0
    (List.range maxValues).map
      (fun i => keys.map (fun k => (k, (assocGet merged k).getD i "")))

/-- Character-level join with a separator between consecutive pieces. -/
def joinChars (sep : List Char) : List (List Char) → List Char
  | [] => []
  | [x] => x
  | x :: y :: rest => x ++ sep ++ joinChars sep (y :: rest)

/-- The serialized line of one merged entry: `key: v1, v2, v3`. -/
def mergedLine (e : String × List String) : List Char :=
  e.1.data ++ ':' :: ' ' :: joinChars [',', ' '] (e.2.map String.data)

/-- Modelled from the spec: the round-trip serialization of a merged field
table, "one `key: v1, v2, v3` line per key" (§8, idempotence property). -/
def serializeMerged (m : List (String × List String)) : String :=
  String.mk (joinChars ['\n'] (m.map mergedLine))

/-- The amended value-splitting policy, stated at the spec level: the
comma/semicolon/pipe split is used when the span contains one of those
delimiter characters (equivalently, when the raw split yields two or more
pieces); otherwise the span is re-split on the words "and"/"or"; values that
are empty after trimming are discarded in either case. -/
def splitValuesPolicy (text : List Char) : List (List Char) :=
  if text.any delimChar then ((splitDelim text).map jsTrim).filter (· ≠ [])
  else ((andOrSplit text).map jsTrim).filter (· ≠ [])

/-- The claimed value-splitting policy, read literally: the first split's
result is used iff it yields two or more non-empty trimmed values; otherwise
(one value or none) the span is re-split on "and"/"or". -/
def splitValuesClaimed (text : List Char) : List (List Char) :=
  let nonEmpty := ((splitDelim text).map jsTrim).filter (· ≠ [])
  if 2 ≤ nonEmpty.length then nonEmpty
  else ((andOrSplit text).map jsTrim).filter (· ≠ [])

/-! ### `ZeroShotClassifier` and `ContentAnalyzer` (src/src/nlp/ZeroShotClassifier.ts) -/

/-- One (label, score) pair returned by the zero-shot pipeline. -/
structure ClassificationResult where
  label : String
  score : ℚ
  deriving DecidableEq, Repr

/-- `TableData` (src/src/parsers/ParserFactory.ts types). -/
structure TableData where
  headers : Option (List String)
  rows : List (List String)
  deriving DecidableEq, Repr

/-- `ExtractedContent`; the random UUID `id` carries no information relevant
to any verified property, so text analysis assigns it the empty string. -/
structure ExtractedContent where
  id : String
  type : String
  content : String
  confidence : ℚ
  page : Option Nat
  paragraph : Option Nat
  tableData : Option TableData
  deriving DecidableEq, Repr

/-- `ZeroShotClassifier.classify` with the inference pipeline abstracted as a
fallible `scorer`: text that trims to nothing and a scorer failure both yield
a zero score for every requested label; a scorer success is returned as-is. -/
def classify
    (scorer : String → List String → Except String (List ClassificationResult))
    (text : String) (candidateLabels : List String) :
    List ClassificationResult :=
  if jsTrim text.data = [] then candidateLabels.map (fun l => ⟨l, 0⟩)
  else
    match scorer text candidateLabels with
    | .ok r => r
    | .error _ => candidateLabels.map (fun l => ⟨l, 0⟩)

/-- The body of the paragraph loop of `ContentAnalyzer.analyzeText` for the
paragraph with ordinal index `i`. -/
def processParagraph
    (scorer : String → List String → Except String (List ClassificationResult))
    (confidenceThreshold : ℚ) (classificationLabels : List String)
    (i : Nat) (paragraph : String) : Option ExtractedContent :=
  if paragraph.length < 10 then none
  else
    match classify scorer paragraph classificationLabels with
    | [] => none
    | top :: _ =>
      let confidence := calculateConfidence paragraph top.score
      if confidenceThreshold ≤ confidence then
        some ⟨"", top.label, paragraph, confidence, none, some i, none⟩
      else none

/-- `ContentAnalyzer.analyzeText` (called without page metadata, as in
`DocumentExtractor.extract`). -/
def analyzeText
    (scorer : String → List String → Except String (List ClassificationResult))
    (confidenceThreshold : ℚ) (classificationLabels : List String)
    (text : String) : List ExtractedContent :=
  (splitIntoParagraphs (normalizeText text)).enum.filterMap
    (fun p => processParagraph scorer confidenceThreshold classificationLabels p.1 p.2)

/-- `ContentAnalyzer` mutable settings. -/
structure ContentAnalyzerState where
  confidenceThreshold : ℚ
  classificationLabels : List String
  deriving DecidableEq, Repr

/-- The `ContentAnalyzer` constructor: apply defaults, validate nothing. -/
def mkContentAnalyzer (threshold : Option ℚ) (labels : Option (List String)) :
    ContentAnalyzerState :=
  ⟨threshold.getD (1 / 2),
   labels.getD ["business_rule", "formula", "condition", "definition", "text"]⟩

/-- `ContentAnalyzer.setConfidenceThreshold` (throws when out of range). -/
def setConfidenceThreshold (s : ContentAnalyzerState) (threshold : ℚ) :
    Except String ContentAnalyzerState :=
  if threshold < 0 ∨ 1 < threshold then
    .error "Confidence threshold must be between 0 and 1"
  else .ok { s with confidenceThreshold := threshold }

/-- `ContentAnalyzer.setClassificationLabels` (throws on an empty list). -/
def setClassificationLabels (s : ContentAnalyzerState) (labels : List String) :
    Except String ContentAnalyzerState :=
  if labels = [] then .error "Classification labels cannot be empty"
  else .ok { s with classificationLabels := labels }

/-! ### Configuration (src/src/parsers/ParserFactory.ts, src/unnamed/part_006) -/

/-- The parsed `ExtractorConfigType`. -/
structure ExtractorConfigType where
  classificationLabels : List String
  confidenceThreshold : ℚ
  enableTableExtraction : Bool
  modelName : String
  deriving DecidableEq, Repr

/-- A `Partial<ExtractorConfigType>`. -/
structure PartialConfig where
  classificationLabels : Option (List String) := none
  confidenceThreshold : Option ℚ := none
  enableTableExtraction : Option Bool := none
  modelName : Option String := none
  deriving DecidableEq, Repr

/-- `ExtractorConfigSchema.parse`: zod applies the defaults and checks
`confidenceThreshold` with `.min(0).max(1)`; the label array carries no
constraint beyond its element type. -/
def schemaParse (c : PartialConfig) : Except String ExtractorConfigType :=
  let th := c.confidenceThreshold.getD (1 / 2)
  if th < 0 ∨ 1 < th then .error "confidenceThreshold out of range"
  else
    .ok ⟨c.classificationLabels.getD
           ["business_rule", "formula", "condition", "definition", "table", "text"],
         th, c.enableTableExtraction.getD true,
         c.modelName.getD "Xenova/distilbert-base-uncased-mnli"⟩

/-- The `DocumentExtractor` constructor: parse the config, then build the
analyzer from the parsed threshold and labels (no further validation). -/
def mkDocumentExtractor (c : PartialConfig) :
    Except String (ExtractorConfigType × ContentAnalyzerState) :=
  (schemaParse c).map (fun cfg =>
    (cfg, mkContentAnalyzer (some cfg.confidenceThreshold)
            (some cfg.classificationLabels)))

/-- The `{...this.config, ...config}` spread. -/
def spreadConfig (cfg : ExtractorConfigType) (c : PartialConfig) : PartialConfig :=
  ⟨some (c.classificationLabels.getD cfg.classificationLabels),
   some (c.confidenceThreshold.getD cfg.confidenceThreshold),
   some (c.enableTableExtraction.getD cfg.enableTableExtraction),
   some (c.modelName.getD cfg.modelName)⟩

/-- `DocumentExtractor.updateConfig`: re-parse the merged config, then forward
a supplied threshold and a supplied label list to the analyzer setters (which
may throw). -/
def updateConfig (st : ExtractorConfigType × ContentAnalyzerState)
    (c : PartialConfig) : Except String (ExtractorConfigType × ContentAnalyzerState) :=
  match schemaParse (spreadConfig st.1 c) with
  | .error e => .error e
  | .ok cfg =>
    match (match c.confidenceThreshold with
           | some t => setConfidenceThreshold st.2 t
           | none => .ok st.2) with
    | .error e => .error e
    | .ok a1 =>
      match (match c.classificationLabels with
             | some ls => setClassificationLabels a1 ls
             | none => .ok a1) with
      | .error e => .error e
      | .ok a2 => .ok (cfg, a2)

/-- Whether a fallible call returned normally (no exception thrown). -/
def isOkE : Except String α → Bool
  | .ok _ => true
  | .error _ => false

/-! ### `PdfParser` table heuristics (src/src/parsers/PdfParser.ts) -/

/-- The separator scan for `line.split(/\s{2,}|\t+/)`: a maximal whitespace
run of length at least two, or (when the run has length one) a tab. -/
def splitWsRowF : Nat → List Char → List (List Char)
  | 0, l => [l]
  | fuel + 1, cs =>
    match cs with
    | [] => [[]]
    | c :: cs2 =>
      if 2 ≤ ((c :: cs2).takeWhile jsWs).length then
        [] :: splitWsRowF fuel ((c :: cs2).dropWhile jsWs)
      else if c = '\t' then [] :: splitWsRowF fuel cs2
      else (splitWsRowF fuel cs2).modifyHead (c :: ·)

/-- `PdfParser.splitTableRow`: split, trim each cell, drop empty cells. -/
def splitTableRow (line : String) : List String :=
  (((splitWsRowF (line.data.length + 1) line.data).map jsTrim).filter
    (· ≠ [])).map String.mk

/-- The four header tokens of the heuristic. -/
def headerTokens : List String := ["name", "type", "description", "value"]

/-- `hay.includes(needle)`. -/
def containsSub (hay needle : List Char) : Bool :=
  (List.range (hay.length + 1)).any (fun i => needle.isPrefixOf (hay.drop i))

/-- `PdfParser.detectHeaders`: the first row is a header iff some cell
case-insensitively contains one of the tokens, or some cell contains no
digit. -/
def detectHeaders (table : List (List String)) : Option (List String) :=
  match table with
  | [] => none
  | firstRow :: _ =>
    if firstRow.any (fun cell =>
        headerTokens.any (fun tok =>
          containsSub (cell.data.map asciiLower) tok.data) ||
        !cell.data.any digitChar)
    then some firstRow else none

/-- Close a finished block: detect headers; with a header the remaining rows
are the data rows, otherwise every row is. -/
def mkTable (block : List (List String)) : TableData :=
  match detectHeaders block with
  | some hs => ⟨some hs, block.tail⟩
  | none => ⟨none, block⟩

/-- `text.split('\n')`. -/
def splitNlL : List Char → List (List Char)
  | [] => [[]]
  | c :: cs =>
    if c = '\n' then [] :: splitNlL cs else (splitNlL cs).modifyHead (c :: ·)

/-- The line loop of `PdfParser.extractTables`; `cur` holds the cell rows of
the current block (`cur = []` iff `inTable` is false). -/
def extractTablesLoop : List (List String) → List String → List TableData
  | cur, [] => if 1 < cur.length then [mkTable cur] else []
  | cur, l :: ls =>
    let cells := splitTableRow (strTrim l)
    if 2 ≤ cells.length then extractTablesLoop (cur ++ [cells]) ls
    else (if 1 < cur.length then [mkTable cur] else []) ++ extractTablesLoop [] ls

/-- `PdfParser.extractTables`. -/
def extractTables (text : String) : List TableData :=
  extractTablesLoop [] ((splitNlL text.data).map String.mk)

/-- A line qualifies as a table row iff its trimmed form splits into at least
two cells. -/
def isTableRow (l : String) : Bool := 2 ≤ (splitTableRow (strTrim l)).length

/-- Modelled from the spec (§4.2 step 4): the maximal groups of consecutive
elements satisfying `p`. -/
def chunkRunsF (p : α → Bool) : Nat → List α → List (List α)
  | 0, _ => []
  | fuel + 1, l =>
    match l with
    | [] => []
    | a :: as =>
      if p a then (a :: as.takeWhile p) :: chunkRunsF p fuel (as.dropWhile p)
      else chunkRunsF p fuel as

/-- `chunkRunsF` with sufficient fuel. -/
def chunkRuns (p : α → Bool) (l : List α) : List (List α) :=
  chunkRunsF p (l.length + 1) l

/-! ### `CsvExporter` (src/src/exporters/CsvExporter.ts) -/

/-- `DocumentMetadata`; `extractedAt.toISOString()` is modelled as the
rendered string. -/
structure DocumentMetadataM where
  fileName : String
  fileType : String
  extractedAtIso : String
  totalPages : Option Nat
  totalParagraphs : Option Nat
  deriving DecidableEq, Repr

/-- The derived summary. -/
structure SummaryM where
  totalItems : Nat
  byType : List (String × Nat)
  deriving DecidableEq, Repr

/-- `ExtractionResult`. -/
structure ExtractionResultM where
  metadata : DocumentMetadataM
  contents : List ExtractedContent
  summary : Option SummaryM
  deriving DecidableEq, Repr

/-- `Number.prototype.toString` on the values `confidence` takes (integer
hundredths in [0, 1]): integer part, then at most two decimals with no
trailing zero. -/
def renderScore (q : ℚ) : String :=
  let k : Int := Int.floor (q * 100)
  let ip := toString (k / 100)
  if k % 100 = 0 then ip
  else if k % 10 = 0 then ip ++ "." ++ toString (k / 10 % 10)
  else ip ++ "." ++ toString (k / 10 % 10) ++ toString (k % 10)

/-- The quoting trigger of `escapeCsvRow`. -/
def needsQuote (cell : String) : Bool :=
  cell.data.any (fun c => c = ',' || c = '"' || c = '\n')

/-- `.replace(/"/g, '""')`. -/
def doubleQuotes : List Char → List Char
  | [] => []
  | c :: cs =>
    if c = '"' then '"' :: '"' :: doubleQuotes cs else c :: doubleQuotes cs

/-- `CsvExporter.escapeCsvRow`. -/
def escapeCsvRow (row : List String) : String :=
  String.intercalate ","
    (row.map (fun cell =>
      if needsQuote cell then "\"" ++ String.mk (doubleQuotes cell.data) ++ "\""
      else cell))

/-- The seven cells of one CSV data row. -/
def csvUnitCells (c : ExtractedContent) : List String :=
  [c.id, c.type,
   String.mk (c.content.data.map (fun ch => if ch = '\n' then ' ' else ch)),
   renderScore c.confidence,
   (c.page.map toString).getD "",
   (c.paragraph.map toString).getD "",
   if c.tableData.isSome then "Yes" else "No"]

/-- The trailing `# …` metadata/summary rows. -/
def csvMetaRows (r : ExtractionResultM) : List String :=
  ["", "# Metadata",
   "# File Name: " ++ r.metadata.fileName,
   "# File Type: " ++ r.metadata.fileType,
   "# Extracted At: " ++ r.metadata.extractedAtIso,
   "# Total Pages: " ++ (r.metadata.totalPages.map toString).getD "N/A",
   "# Total Paragraphs: " ++ (r.metadata.totalParagraphs.map toString).getD "N/A"] ++
  (match r.summary with
   | some s =>
     ["", "# Summary", "# Total Items: " ++ toString s.totalItems, "# By Type:"] ++
     s.byType.map (fun e => "#   " ++ e.1 ++ ": " ++ toString e.2)
   | none => [])

/-- The `rows` array built by `CsvExporter.generateCsv`. -/
def generateCsvRows (r : ExtractionResultM) (includeMetadata : Bool) : List String :=
  escapeCsvRow ["ID", "Type", "Content", "Confidence", "Page", "Paragraph",
    "Has Table Data"] ::
  (r.contents.map (fun c => escapeCsvRow (csvUnitCells c)) ++
   (if includeMetadata then csvMetaRows r else []))

/-- `CsvExporter.generateCsv` (`rows.join('\n')`). -/
def generateCsv (r : ExtractionResultM) (includeMetadata : Bool) : String :=
  String.intercalate "\n" (generateCsvRows r includeMetadata)

/-- Modelled from the spec (§4.6): standard CSV quoting — a field containing
a comma, a double quote, or a line break is wrapped in double quotes with
internal double quotes doubled; any other field is emitted untouched. -/
def csvFieldSpec (field : String) : String :=
  if field.data.any (· = ',') || field.data.any (· = '"') ||
     field.data.any (· = '\n') then
    String.mk ('"' :: (field.data.flatMap
      (fun c => if c = '"' then ['"', '"'] else [c]) ++ ['"']))
  else field

/-- Modelled from the spec (§4.6): the tabular CSV content — the fixed header
row, then exactly one row per unit in sequence order whose content has line
breaks collapsed to spaces, every field quoted by the standard rule. -/
def csvRowsSpec (r : ExtractionResultM) : List String :=
  String.intercalate ","
    (["ID", "Type", "Content", "Confidence", "Page", "Paragraph",
      "Has Table Data"].map csvFieldSpec) ::
  r.contents.map (fun c =>
    String.intercalate ","
      ([c.id, c.type,
        String.mk (c.content.data.map (fun ch => if ch = '\n' then ' ' else ch)),
        renderScore c.confidence,
        (c.page.map toString).getD "",
        (c.paragraph.map toString).getD "",
        if c.tableData.isSome then "Yes" else "No"].map csvFieldSpec))

/-- The shape of the star part `(?:\s+\w+)*` of a matched label: alternating
non-empty whitespace runs and word runs. -/
inductive ExtShape : List Char → Prop
  | nil : ExtShape []
  | step (s w e : List Char) (hs : s ≠ []) (halls : ∀ c ∈ s, jsWs c = true)
      (hw : w ≠ []) (hallw : ∀ c ∈ w, wordChar c = true) (he : ExtShape e) :
      ExtShape (s ++ w ++ e)

/-- The shape of a key produced by `extractFields`: a leading word run
followed by a star part. -/
def KeyGood (k : List Char) : Prop :=
  ∃ w e, k = w ++ e ∧ w ≠ [] ∧ (∀ c ∈ w, wordChar c = true) ∧ ExtShape e

/-- The shape of a value produced by `extractFields`: non-empty, trimmed, and
free of value delimiters and line feeds. -/
def GoodValue (v : List Char) : Prop :=
  v ≠ [] ∧ jsTrim v = v ∧ ∀ c ∈ v, delimChar c = false ∧ notSemiNl c = true

/-- A well-formed field as produced by `extractFields`: a good key and a
non-empty list of good values. -/
def FieldGood (f : StructuredField) : Prop :=
  KeyGood f.key.data ∧ f.values ≠ [] ∧ ∀ v ∈ f.values, GoodValue v.data

/-- A well-formed merged entry: a good key and a non-empty list of good
values. -/
def EntryGood (e : String × List String) : Prop :=
  KeyGood e.1.data ∧ e.2 ≠ [] ∧ ∀ v ∈ e.2, GoodValue v.data

/-! ## Theorems -/

/-- `dropWhile` never lengthens a list. -/
theorem dropWhile_length_le (p : α → Bool) :
    ∀ l : List α, (l.dropWhile p).length ≤ l.length
  | [] => Nat.le_refl _
  | a :: l => by
    rw [List.dropWhile_cons]
    split
    · exact Nat.le_succ_of_le (dropWhile_length_le p l)
    · exact Nat.le_refl _

/-- `modifyHead` preserves length. -/
theorem modifyHead_len (f : α → α) : ∀ l : List α, (l.modifyHead f).length = l.length
  | [] => rfl
  | _ :: _ => rfl

/-- `splitDelim` always yields at least one piece. -/
theorem splitDelim_ne_nil : ∀ l : List Char, splitDelim l ≠ []
  | [] => by simp [splitDelim]
  | c :: cs => by
    rw [splitDelim]
    split
    · simp
    · have h := splitDelim_ne_nil cs
      cases hs : splitDelim cs with
      | nil => exact absurd hs h
      | cons a as => simp [hs, List.modifyHead]

/-- `splitDelim` yields exactly one piece iff the text contains no delimiter
character. -/
theorem splitDelim_length_one :
    ∀ l : List Char, (splitDelim l).length = 1 ↔ l.any delimChar = false := by
  intro l
  induction l with
  | nil => simp [splitDelim]
  | cons c cs ih =>
    simp only [splitDelim, List.any_cons]
    by_cases h : delimChar c
    · rw [if_pos h, h]
      simp only [List.length_cons, Bool.true_or]
      constructor
      · intro hl
        have h0 : (splitDelim cs).length = 0 := by omega
        exact absurd (List.length_eq_zero.mp h0) (splitDelim_ne_nil cs)
      · intro hfalse
        simp at hfalse
    · have hb : delimChar c = false := by simpa using h
      rw [if_neg h, modifyHead_len, hb, Bool.false_or]
      exact ih

/-- C3 (amended), part 1: `splitValues` implements the amended policy — the
delimiter split is used iff the span contains a comma, semicolon, or pipe. -/
theorem splitValuesL_eq_policy : ∀ l : List Char, splitValuesL l = splitValuesPolicy l := by
  intro l
  by_cases h : l.any delimChar = true
  · have h1 : ¬ ((splitDelim l).map jsTrim).length = 1 := by
      rw [List.length_map, splitDelim_length_one]
      simp [h]
    simp only [splitValuesL, splitValuesPolicy, if_neg h1, if_pos h]
  · have hb : l.any delimChar = false := by simpa using h
    have h1 : ((splitDelim l).map jsTrim).length = 1 := by
      rw [List.length_map, splitDelim_length_one]
      exact hb
    simp only [splitValuesL, splitValuesPolicy, if_pos h1, if_neg h]

/-- Every field emitted by the extraction loop carries a non-empty value
list. -/
theorem extractLoopF_values_ne :
    ∀ (fuel : Nat) (cs : List Char) (f : StructuredField),
      f ∈ extractLoopF fuel cs → f.values ≠ [] := by
  intro fuel
  induction fuel with
  | zero => intro cs f h; simp [extractLoopF] at h
  | succ n ih =>
    intro cs f h
    rw [extractLoopF] at h
    cases hm : findMatch cs with
    | none => rw [hm] at h; simp at h
    | some r =>
      obtain ⟨start, label, g2, rest⟩ := r
      rw [hm] at h
      rcases List.mem_append.mp h with h1 | h2
      · by_cases hv : splitValuesL (jsTrim g2) ≠ []
        · rw [if_pos hv] at h1
          rcases List.mem_singleton.mp h1 with rfl
          simpa [List.map_eq_nil_iff] using hv
        · rw [if_neg hv] at h1
          simp at h1
      · exact ih rest f h2

/-- C3, corrected: for every captured value span the value list is obtained by
first splitting on comma, semicolon, or vertical bar, that result being used
iff the span contains one of those delimiter characters (equivalently, iff the
raw split yields two or more pieces — the check precedes empty-value
filtering); only a span containing no delimiter character is re-split on the
literal words "and"/"or"; values empty after trimming are discarded in either
case, and a span producing zero values records no field. -/
theorem c3_split_policy :
    (∀ text : String, splitValues text = (splitValuesPolicy text.data).map String.mk) ∧
    (∀ (text : String) (f : StructuredField), f ∈ extractFields text → f.values ≠ []) :=
  ⟨fun text => by rw [splitValues, splitValuesL_eq_policy],
   fun _ f h => extractLoopF_values_ne _ _ f h⟩

/-- Witness for `c3_split_policy`. -/
theorem c3_split_policy_witness :
    splitValues "India, US" = (splitValuesPolicy (String.data "India, US")).map String.mk ∧
    ({ key := "A", values := ["x", "y"], rawText := "A: x, y" } : StructuredField).values ≠ [] :=
  ⟨c3_split_policy.1 "India, US",
   c3_split_policy.2 "A: x, y" _ (by decide)⟩

/-- C3, counterexample: on the reachable span `"x and y,"` (captured from the
text `"Key: x and y,"`) the code keeps the single non-empty value
`"x and y"` (the raw delimiter split has two pieces, so no fallback fires),
while the claimed policy — first result used iff it has two or more non-empty
trimmed values, otherwise re-split on "and"/"or" — would give `["x", "y,"]`. -/
theorem c3_counterexample :
    extractFields "Key: x and y," =
      [{ key := "Key", values := ["x and y"], rawText := "Key: x and y," }] ∧
    (splitValuesClaimed (String.data "x and y,")).map String.mk = ["x", "y,"] ∧
    splitValues "x and y," ≠ (splitValuesClaimed (String.data "x and y,")).map String.mk := by
  refine ⟨by decide, by decide, by decide⟩

/-- C1: Scenario A — `extractFields` then `mergeFields` on
`"Country: India, US, China\nTripType: OneWay, RoundTrip"` yields exactly the
keys `Country`, `TripType` in that order, and `toFlatStructure` yields exactly
the three expected rows, the last padding `TripType` with the empty string. -/
theorem c1_scenarioA :
    (mergeFields (extractFields "Country: India, US, China\nTripType: OneWay, RoundTrip")).map
        Prod.fst = ["Country", "TripType"] ∧
    mergeFields (extractFields "Country: India, US, China\nTripType: OneWay, RoundTrip") =
      [("Country", ["India", "US", "China"]), ("TripType", ["OneWay", "RoundTrip"])] ∧
    toFlatStructure (extractFields "Country: India, US, China\nTripType: OneWay, RoundTrip") =
      [[("Country", "India"), ("TripType", "OneWay")],
       [("Country", "US"), ("TripType", "RoundTrip")],
       [("Country", "China"), ("TripType", "")]] := by
  refine ⟨by decide, by decide, by decide⟩

/-- `collapseWs` never emits a line feed. -/
theorem collapseWs_no_nl : ∀ (b : Bool) (l : List Char), '\n' ∉ collapseWs b l := by
  intro b l
  induction l generalizing b with
  | nil => simp [collapseWs]
  | cons c cs ih =>
    intro h
    simp only [collapseWs] at h
    by_cases hws : jsWs c
    · rw [if_pos hws] at h
      by_cases hb : b
      · rw [if_pos hb] at h
        exact ih true h
      · rw [if_neg hb] at h
        rcases List.mem_cons.mp h with h1 | h2
        · exact absurd h1 (by decide)
        · exact ih true h2
    · rw [if_neg hws] at h
      rcases List.mem_cons.mp h with h1 | h2
      · subst h1
        exact hws (by decide)
      · exact ih false h2

/-- Members of `jsTrim l` are members of `l`. -/
theorem mem_of_mem_jsTrim {l : List Char} {a : Char} (h : a ∈ jsTrim l) : a ∈ l := by
  unfold jsTrim at h
  rw [List.mem_reverse] at h
  have h1 : a ∈ (l.dropWhile jsWs).reverse := (List.dropWhile_sublist _).mem h
  rw [List.mem_reverse] at h1
  exact (List.dropWhile_sublist _).mem h1

/-- The head surviving `dropWhile` falsifies the predicate. -/
theorem dropWhile_head_false (p : α → Bool) :
    ∀ (l : List α) (a : α) (r : List α), l.dropWhile p = a :: r → p a = false := by
  intro l
  induction l with
  | nil => intro a r h; simp at h
  | cons c cs ih =>
    intro a r h
    rw [List.dropWhile_cons] at h
    by_cases hc : p c
    · rw [if_pos hc] at h
      exact ih a r h
    · rw [if_neg hc] at h
      cases h
      simpa using hc

/-- `dropWhile` is idempotent. -/
theorem dropWhile_idem (p : α → Bool) (l : List α) :
    (l.dropWhile p).dropWhile p = l.dropWhile p := by
  cases h : l.dropWhile p with
  | nil => rfl
  | cons a r =>
    rw [List.dropWhile_cons, if_neg]
    simp [dropWhile_head_false p l a r h]

/-- A non-empty `dropWhile` keeps the last element. -/
theorem getLast?_dropWhile (p : α → Bool) :
    ∀ l : List α, l.dropWhile p ≠ [] → (l.dropWhile p).getLast? = l.getLast? := by
  intro l
  induction l with
  | nil => intro h; simp at h
  | cons c cs ih =>
    intro h
    rw [List.dropWhile_cons] at h ⊢
    by_cases hc : p c
    · rw [if_pos hc] at h ⊢
      rw [ih h]
      cases cs with
      | nil => simp [List.dropWhile_nil] at h
      | cons d ds => rw [List.getLast?_cons_cons]
    · rw [if_neg hc]

/-- The first character of a trimmed string is not whitespace. -/
theorem head?_jsTrim (l : List Char) (a : Char) (h : (jsTrim l).head? = some a) :
    jsWs a = false := by
  unfold jsTrim at h
  rw [List.head?_reverse] at h
  by_cases hne : ((l.dropWhile jsWs).reverse).dropWhile jsWs = []
  · rw [hne] at h
    simp at h
  · rw [getLast?_dropWhile jsWs _ hne, List.getLast?_reverse] at h
    cases hd : l.dropWhile jsWs with
    | nil => rw [hd] at h; simp at h
    | cons b r =>
      rw [hd] at h
      simp only [List.head?_cons, Option.some.injEq] at h
      subst h
      exact dropWhile_head_false jsWs l _ _ hd

/-- The last character of a trimmed string is not whitespace. -/
theorem getLast?_jsTrim (l : List Char) (a : Char) (h : (jsTrim l).getLast? = some a) :
    jsWs a = false := by
  unfold jsTrim at h
  rw [List.getLast?_reverse] at h
  cases hd : ((l.dropWhile jsWs).reverse).dropWhile jsWs with
  | nil => rw [hd] at h; simp at h
  | cons b r =>
    rw [hd] at h
    simp only [List.head?_cons, Option.some.injEq] at h
    subst h
    exact dropWhile_head_false jsWs _ _ _ hd

/-- `jsTrim` is idempotent. -/
theorem jsTrim_idem (l : List Char) : jsTrim (jsTrim l) = jsTrim l := by
  have hrev : (jsTrim l).reverse = (l.dropWhile jsWs).reverse.dropWhile jsWs := by
    unfold jsTrim
    rw [List.reverse_reverse]
  have step1 : (jsTrim l).dropWhile jsWs = jsTrim l := by
    cases h : jsTrim l with
    | nil => rfl
    | cons a r =>
      have ha : jsWs a = false := head?_jsTrim l a (by rw [h]; rfl)
      rw [List.dropWhile_cons, if_neg (by simp [ha])]
  show (((jsTrim l).dropWhile jsWs).reverse.dropWhile jsWs).reverse = jsTrim l
  rw [step1, hrev, dropWhile_idem, ← hrev, List.reverse_reverse]

/-- `splitParasF` on newline-free input returns the whole input as the only
piece. -/
theorem splitParasF_no_nl :
    ∀ (fuel : Nat) (l : List Char), l.length < fuel → '\n' ∉ l →
      splitParasF fuel l = [l] := by
  intro fuel
  induction fuel with
  | zero => intro l h _; exact absurd h (Nat.not_lt_zero _)
  | succ n ih =>
    intro l hlen hnl
    cases l with
    | nil => rfl
    | cons c cs =>
      have hc : ¬ (c = '\n' ∧ cs.head? = some '\n') := by
        rintro ⟨h1, _⟩
        exact hnl (h1 ▸ List.mem_cons_self c cs)
      have hcs : '\n' ∉ cs := fun h => hnl (List.mem_cons_of_mem c h)
      have hlen2 : cs.length < n := by
        simpa [List.length_cons] using hlen
      simp only [splitParasF, if_neg hc, ih cs hlen2 hcs, List.modifyHead]

/-- `normalizeText` output contains no line feed. -/
theorem normalizeText_no_nl (s : String) : '\n' ∉ (normalizeText s).data := by
  intro h
  exact collapseWs_no_nl false _ (mem_of_mem_jsTrim h)

/-- After normalization the paragraph split yields nothing (empty text) or the
whole text. -/
theorem splitIntoParagraphs_normalize (s : String) :
    splitIntoParagraphs (normalizeText s) =
      if normalizeText s = "" then [] else [normalizeText s] := by
  have hdata : (normalizeText s).data = jsTrim (collapseWs false
      (((replCrLf s.data).map (fun c => if c = '\r' then '\n' else c)).map
        (fun c => if c = '\t' then ' ' else c))) := rfl
  have hTrim : jsTrim (normalizeText s).data = (normalizeText s).data := by
    rw [hdata, jsTrim_idem]
  unfold splitIntoParagraphs
  rw [splitParasF_no_nl _ _ (Nat.lt_succ_self _) (normalizeText_no_nl s)]
  simp only [List.map_cons, List.map_nil, hTrim]
  by_cases hE : (normalizeText s).data = []
  · rw [if_pos (String.ext_iff.mpr hE)]
    simp [hE]
  · rw [if_neg (fun h => hE (String.ext_iff.mp h))]
    rw [List.filter_cons, if_pos (by simpa using hE)]
    simp

/-- A unit emitted for paragraph `i` records ordinal position `i`. -/
theorem processParagraph_pos
    (scorer : String → List String → Except String (List ClassificationResult))
    (th : ℚ) (labels : List String) (i : Nat) (p : String) (u : ExtractedContent)
    (h : processParagraph scorer th labels i p = some u) : u.paragraph = some i := by
  simp only [processParagraph] at h
  split at h
  · simp at h
  · split at h
    · simp at h
    · split at h
      · cases Option.some.inj h
        rfl
      · simp at h

/-- C2: after `normalizeText` collapses every whitespace run (line breaks
included) to a single space, `splitIntoParagraphs` can never split — the
result has at most one element, and equals the whole normalized text whenever
that text is non-empty — so `ContentAnalyzer.analyzeText` treats the entire
document as a single candidate paragraph and every emitted unit has ordinal
paragraph position 0. -/
theorem c2_single_paragraph :
    (∀ t : String, (splitIntoParagraphs (normalizeText t)).length ≤ 1) ∧
    (∀ t : String, normalizeText t ≠ "" →
      splitIntoParagraphs (normalizeText t) = [normalizeText t]) ∧
    (∀ (scorer : String → List String → Except String (List ClassificationResult))
       (th : ℚ) (labels : List String) (t : String) (u : ExtractedContent),
       u ∈ analyzeText scorer th labels t → u.paragraph = some 0) := by
  refine ⟨?_, ?_, ?_⟩
  · intro t
    rw [splitIntoParagraphs_normalize]
    split
    · simp
    · simp
  · intro t ht
    rw [splitIntoParagraphs_normalize, if_neg ht]
  · intro scorer th labels t u hu
    unfold analyzeText at hu
    rw [splitIntoParagraphs_normalize] at hu
    by_cases hE : normalizeText t = ""
    · rw [if_pos hE] at hu
      simp at hu
    · rw [if_neg hE] at hu
      have henum : List.enum [normalizeText t] = [(0, normalizeText t)] := rfl
      rw [henum] at hu
      cases hp : processParagraph scorer th labels 0 (normalizeText t) with
      | none => simp [List.filterMap_cons, hp] at hu
      | some v =>
        simp only [List.filterMap_cons, hp, List.filterMap_nil,
          List.mem_singleton] at hu
        rw [hu]
        exact processParagraph_pos scorer th labels 0 (normalizeText t) v hp

/-! ### Round-trip development (C4) -/

/-- Word characters are not whitespace. -/
theorem wordChar_not_ws (c : Char) (h : wordChar c = true) : jsWs c = false := by
  rw [← Bool.not_eq_true]
  intro hws
  simp only [wordChar, Bool.or_eq_true, Bool.and_eq_true, decide_eq_true_eq,
    beq_iff_eq] at h
  simp only [jsWs, Bool.or_eq_true, Bool.and_eq_true, decide_eq_true_eq,
    beq_iff_eq] at hws
  omega

/-- Whitespace characters are not word characters. -/
theorem ws_not_word (c : Char) (h : jsWs c = true) : wordChar c = false := by
  cases hw : wordChar c
  · rfl
  · rw [wordChar_not_ws c hw] at h
    exact absurd h (by simp)

/-- `takeWhile`/`dropWhile` across a fully satisfied prefix followed by a
failing head. -/
theorem takeWhile_all_append (p : α → Bool) :
    ∀ (w l : List α), (∀ c ∈ w, p c = true) →
      (∀ c, l.head? = some c → p c = false) →
      (w ++ l).takeWhile p = w ∧ (w ++ l).dropWhile p = l := by
  intro w
  induction w with
  | nil =>
    intro l _ hl
    cases l with
    | nil => simp
    | cons a as =>
      rw [List.nil_append, List.takeWhile_cons, List.dropWhile_cons]
      simp [hl a rfl]
  | cons c cs ih =>
    intro l hw hl
    have hc : p c = true := hw c (List.mem_cons_self c cs)
    have hrest := ih l (fun x hx => hw x (List.mem_cons_of_mem c hx)) hl
    rw [List.cons_append, List.takeWhile_cons, List.dropWhile_cons]
    simp [hc, hrest.1, hrest.2]

/-- Dropping a leading whitespace character commutes with trimming. -/
theorem jsTrim_cons_ws (c : Char) (l : List Char) (h : jsWs c = true) :
    jsTrim (c :: l) = jsTrim l := by
  unfold jsTrim
  rw [List.dropWhile_cons, if_pos (by simp [h])]

/-- A list whose first and last characters are not whitespace is its own
trim. -/
theorem jsTrim_of_ends (l : List Char)
    (hh : ∀ c, l.head? = some c → jsWs c = false)
    (hl : ∀ c, l.getLast? = some c → jsWs c = false) : jsTrim l = l := by
  have h1 : l.dropWhile jsWs = l := by
    cases l with
    | nil => rfl
    | cons a as => rw [List.dropWhile_cons, if_neg (by simp [hh a rfl])]
  have h2 : l.reverse.dropWhile jsWs = l.reverse := by
    cases hr : l.reverse with
    | nil => rfl
    | cons a as =>
      have hla : l.getLast? = some a := by
        rw [← List.head?_reverse, hr]
        rfl
      rw [List.dropWhile_cons, if_neg (by simp [hl a hla])]
  unfold jsTrim
  rw [h1, h2, List.reverse_reverse]

/-- The head of an append with a non-empty left part. -/
theorem head?_append_left (x m : List α) (h : x ≠ []) :
    (x ++ m).head? = x.head? := by
  cases x with
  | nil => exact absurd rfl h
  | cons a as => rfl

/-- The last element of an append with a non-empty right part. -/
theorem getLast?_append_right (x m : List α) (h : m ≠ []) :
    (x ++ m).getLast? = m.getLast? := by
  rw [← List.head?_reverse, List.reverse_append,
    head?_append_left _ _ (by simpa using h), List.head?_reverse]

/-- Unfolding a two-or-more-piece join. -/
theorem joinChars_cons_cons (sep x y : List Char) (rest : List (List Char)) :
    joinChars sep (x :: y :: rest) = x ++ sep ++ joinChars sep (y :: rest) := rfl

/-- Members of a join come from the separator or from one of the pieces. -/
theorem joinChars_mem (sep : List Char) :
    ∀ (ls : List (List Char)) (c : Char), c ∈ joinChars sep ls →
      c ∈ sep ∨ ∃ x ∈ ls, c ∈ x := by
  intro ls
  induction ls with
  | nil => intro c h; simp [joinChars] at h
  | cons x ys ih =>
    intro c h
    cases ys with
    | nil =>
      exact Or.inr ⟨x, List.mem_cons_self x [], by simpa [joinChars] using h⟩
    | cons y rest =>
      rw [joinChars_cons_cons] at h
      rcases List.mem_append.mp h with h2 | hrec
      · rcases List.mem_append.mp h2 with hx | hsep
        · exact Or.inr ⟨x, List.mem_cons_self _ _, hx⟩
        · exact Or.inl hsep
      · rcases ih c hrec with hsep | ⟨z, hz, hcz⟩
        · exact Or.inl hsep
        · exact Or.inr ⟨z, List.mem_cons_of_mem x hz, hcz⟩

/-- The head of a join of pieces is the head of the first (non-empty)
piece. -/
theorem joinChars_head (sep x : List Char) (ls : List (List Char)) (h : x ≠ []) :
    (joinChars sep (x :: ls)).head? = x.head? := by
  cases ls with
  | nil => rfl
  | cons y rest =>
    rw [joinChars_cons_cons, List.append_assoc, head?_append_left x _ h]

/-- A join headed by a non-empty piece is non-empty. -/
theorem joinChars_ne_nil (sep x : List Char) (ls : List (List Char)) (h : x ≠ []) :
    joinChars sep (x :: ls) ≠ [] := by
  intro hn
  have hh := joinChars_head sep x ls h
  rw [hn] at hh
  cases x with
  | nil => exact h rfl
  | cons a as => simp at hh

/-- The last character of a join of non-empty pieces is the last character of
one of the pieces. -/
theorem joinChars_last_mem (sep : List Char) :
    ∀ (x : List Char) (ls : List (List Char)) (c : Char),
      (∀ z ∈ x :: ls, z ≠ []) →
      (joinChars sep (x :: ls)).getLast? = some c →
      ∃ z ∈ x :: ls, z.getLast? = some c := by
  intro x ls
  induction ls generalizing x with
  | nil =>
    intro c _ h
    exact ⟨x, List.mem_cons_self _ _, by simpa [joinChars] using h⟩
  | cons y rest ih =>
    intro c hall h
    have hy : y ≠ [] := hall y (List.mem_cons_of_mem x (List.mem_cons_self y rest))
    have hJ : joinChars sep (y :: rest) ≠ [] := joinChars_ne_nil sep y rest hy
    rw [show joinChars sep (x :: y :: rest) =
        (x ++ sep) ++ joinChars sep (y :: rest) from rfl,
      getLast?_append_right _ _ hJ] at h
    obtain ⟨z, hz, hzl⟩ := ih y c (fun z hz => hall z (List.mem_cons_of_mem x hz)) h
    exact ⟨z, List.mem_cons_of_mem x hz, hzl⟩

/-- `afterColon` consumes at least one character and yields a non-empty
group 2 of `[^;\n]` characters. -/
theorem afterColon_props :
    ∀ (cs g2 rest : List Char), afterColon cs = some (g2, rest) →
      rest.length < cs.length ∧ g2 ≠ [] ∧ ∀ c ∈ g2, notSemiNl c = true := by
  intro cs
  induction cs with
  | nil => intro g2 rest h; simp [afterColon] at h
  | cons c cs ih =>
    intro g2 rest h
    simp only [afterColon] at h
    by_cases hws : jsWs c
    · rw [if_pos hws] at h
      cases hrec : afterColon cs with
      | some r =>
        rw [hrec] at h
        rw [Option.some.injEq] at h
        subst h
        obtain ⟨h1, h2, h3⟩ := ih g2 rest hrec
        exact ⟨by simp only [List.length_cons]; omega, h2, h3⟩
      | none =>
        rw [hrec] at h
        by_cases hns : notSemiNl c
        · rw [if_pos hns] at h
          rw [Option.some.injEq, Prod.mk.injEq] at h
          obtain ⟨hg, hr⟩ := h
          subst hg; subst hr
          refine ⟨?_, ?_, ?_⟩
          · rw [List.dropWhile_cons, if_pos (by simp [hns])]
            have := dropWhile_length_le notSemiNl cs
            simp only [List.length_cons]
            omega
          · rw [List.takeWhile_cons, if_pos (by simp [hns])]
            simp
          · intro x hx
            exact List.mem_takeWhile_imp hx
        · rw [if_neg hns] at h
          simp at h
    · rw [if_neg hws] at h
      by_cases hns : notSemiNl c
      · rw [if_pos hns] at h
        rw [Option.some.injEq, Prod.mk.injEq] at h
        obtain ⟨hg, hr⟩ := h
        subst hg; subst hr
        refine ⟨?_, ?_, ?_⟩
        · rw [List.dropWhile_cons, if_pos (by simp [hns])]
          have := dropWhile_length_le notSemiNl cs
          simp only [List.length_cons]
          omega
        · rw [List.takeWhile_cons, if_pos (by simp [hns])]
          simp
        · intro x hx
          exact List.mem_takeWhile_imp hx
      · rw [if_neg hns] at h
        simp at h

/-- `endStar` adds no label extension, consumes the colon, and yields a good
group 2. -/
theorem endStar_props (cs ext g2 rest : List Char)
    (h : endStar cs = some (ext, g2, rest)) :
    ext = [] ∧ rest.length < cs.length ∧ g2 ≠ [] ∧
      ∀ c ∈ g2, notSemiNl c = true := by
  unfold endStar at h
  by_cases hc : (cs.dropWhile jsWs).head? = some ':'
  · rw [if_pos hc] at h
    cases hac : afterColon (cs.dropWhile jsWs).tail with
    | none => rw [hac] at h; simp at h
    | some p =>
      obtain ⟨p1, p2⟩ := p
      rw [hac] at h
      simp only [Option.map_some'] at h
      rw [Option.some.injEq, Prod.mk.injEq, Prod.mk.injEq] at h
      obtain ⟨he, hg, hr⟩ := h
      subst he; subst hg; subst hr
      obtain ⟨hlt, hne, hall⟩ := afterColon_props _ p1 p2 hac
      refine ⟨rfl, ?_, hne, hall⟩
      have hd2 := dropWhile_length_le jsWs cs
      have hne2 : cs.dropWhile jsWs ≠ [] := by
        intro hnil
        rw [hnil] at hc
        simp at hc
      have htl : (cs.dropWhile jsWs).tail.length + 1 = (cs.dropWhile jsWs).length := by
        cases hdw : cs.dropWhile jsWs with
        | nil => exact absurd hdw hne2
        | cons a as => simp
      omega
  · rw [if_neg hc] at h
    simp at h

/-- `starThenF` yields a star-shaped label extension, a good group 2, and
consumes past the input. -/
theorem starThen_props :
    ∀ (fuel : Nat) (cs ext g2 rest : List Char),
      starThenF fuel cs = some (ext, g2, rest) →
      rest.length < cs.length ∧ ExtShape ext ∧ g2 ≠ [] ∧
        ∀ c ∈ g2, notSemiNl c = true := by
  intro fuel
  induction fuel with
  | zero => intro cs ext g2 rest h; simp [starThenF] at h
  | succ n ih =>
    intro cs ext g2 rest h
    simp only [starThenF] at h
    by_cases hcond : cs.takeWhile jsWs ≠ [] ∧
        ((cs.dropWhile jsWs).takeWhile wordChar) ≠ []
    · rw [if_pos hcond] at h
      cases hrec : starThenF n ((cs.dropWhile jsWs).dropWhile wordChar) with
      | some r =>
        obtain ⟨e', g', r'⟩ := r
        rw [hrec] at h
        rw [Option.some.injEq, Prod.mk.injEq, Prod.mk.injEq] at h
        obtain ⟨he, hg, hr⟩ := h
        subst he; subst hg; subst hr
        obtain ⟨hlt, hsh, hne, hall⟩ := ih _ e' g' r' hrec
        refine ⟨?_, ?_, hne, hall⟩
        · have h1 := dropWhile_length_le jsWs cs
          have h2 := dropWhile_length_le wordChar (cs.dropWhile jsWs)
          omega
        · exact ExtShape.step _ _ _ hcond.1
            (fun c hc => List.mem_takeWhile_imp hc)
            hcond.2 (fun c hc => List.mem_takeWhile_imp hc) hsh
      | none =>
        rw [hrec] at h
        obtain ⟨he, hlt, hne, hall⟩ := endStar_props cs ext g2 rest h
        exact ⟨hlt, by rw [he]; exact ExtShape.nil, hne, hall⟩
    · rw [if_neg hcond] at h
      obtain ⟨he, hlt, hne, hall⟩ := endStar_props cs ext g2 rest h
      exact ⟨hlt, by rw [he]; exact ExtShape.nil, hne, hall⟩

/-- `matchFrom` yields a well-shaped label and a good group 2, consuming at
least one character. -/
theorem matchFrom_props (cs label g2 rest : List Char)
    (h : matchFrom cs = some (label, g2, rest)) :
    rest.length < cs.length ∧ KeyGood label ∧ g2 ≠ [] ∧
      ∀ c ∈ g2, notSemiNl c = true := by
  simp only [matchFrom] at h
  by_cases hw : cs.takeWhile wordChar = []
  · rw [if_pos hw] at h
    simp at h
  · rw [if_neg hw] at h
    cases hst : starThenF (cs.length + 1) (cs.dropWhile wordChar) with
    | none => rw [hst] at h; simp at h
    | some r =>
      obtain ⟨e', g', r'⟩ := r
      rw [hst] at h
      rw [Option.some.injEq, Prod.mk.injEq, Prod.mk.injEq] at h
      obtain ⟨hl, hg, hr⟩ := h
      subst hl; subst hg; subst hr
      obtain ⟨hlt, hsh, hne, hall⟩ := starThen_props _ _ e' g' r' hst
      have hd := dropWhile_length_le wordChar cs
      exact ⟨by omega,
        ⟨cs.takeWhile wordChar, e', rfl, hw,
          fun c hc => List.mem_takeWhile_imp hc, hsh⟩, hne, hall⟩

/-- `findMatch` yields a suffix at the match start, a well-shaped label, a
good group 2, and always consumes input. -/
theorem findMatch_props :
    ∀ (cs start label g2 rest : List Char),
      findMatch cs = some (start, label, g2, rest) →
      rest.length < cs.length ∧ rest.length < start.length ∧ KeyGood label ∧
        g2 ≠ [] ∧ ∀ c ∈ g2, notSemiNl c = true := by
  intro cs
  induction cs with
  | nil => intro s l g r h; simp [findMatch] at h
  | cons c cs ih =>
    intro s l g r h
    simp only [findMatch] at h
    cases hm : matchFrom (c :: cs) with
    | some m =>
      obtain ⟨l', g', r'⟩ := m
      rw [hm] at h
      rw [Option.some.injEq, Prod.mk.injEq, Prod.mk.injEq, Prod.mk.injEq] at h
      obtain ⟨hs, hl, hg, hr⟩ := h
      subst hs; subst hl; subst hg; subst hr
      obtain ⟨hlt, hkey, hne, hall⟩ := matchFrom_props (c :: cs) l' g' r' hm
      exact ⟨hlt, hlt, hkey, hne, hall⟩
    | none =>
      rw [hm] at h
      obtain ⟨h1, h2, h3, h4, h5⟩ := ih s l g r h
      exact ⟨by simp only [List.length_cons]; omega, h2, h3, h4, h5⟩

/-- The extraction loop is independent of the fuel once it covers the
input. -/
theorem extractLoopF_stable :
    ∀ (f1 f2 : Nat) (cs : List Char), cs.length < f1 → cs.length < f2 →
      extractLoopF f1 cs = extractLoopF f2 cs := by
  intro f1
  induction f1 with
  | zero => intro f2 cs h _; exact absurd h (Nat.not_lt_zero _)
  | succ n ih =>
    intro f2 cs h1 h2
    cases f2 with
    | zero => exact absurd h2 (Nat.not_lt_zero _)
    | succ m =>
      cases hm : findMatch cs with
      | none => simp only [extractLoopF, hm]
      | some r =>
        obtain ⟨s, l, g, rr⟩ := r
        obtain ⟨hlt, _, _, _, _⟩ := findMatch_props cs s l g rr hm
        simp only [extractLoopF, hm]
        congr 1
        exact ih m rr (by omega) (by omega)

/-- An element of a `getLast?` is a member. -/
theorem mem_of_getLast? (l : List α) (a : α) (h : l.getLast? = some a) : a ∈ l := by
  rw [← List.head?_reverse] at h
  have hm : a ∈ l.reverse := by
    cases hr : l.reverse with
    | nil => rw [hr] at h; simp at h
    | cons x xs =>
      rw [hr] at h
      simp only [List.head?_cons, Option.some.injEq] at h
      subst h
      exact List.mem_cons_self x xs
  simpa using hm

/-- Membership in a `modifyHead`. -/
theorem mem_modifyHead (f : α → α) (l : List α) (p : α) (h : p ∈ l.modifyHead f) :
    ∃ x t, l = x :: t ∧ (p = f x ∨ p ∈ t) := by
  cases l with
  | nil => simp [List.modifyHead] at h
  | cons x t =>
    simp only [List.modifyHead] at h
    rcases List.mem_cons.mp h with h1 | h2
    · exact ⟨x, t, rfl, Or.inl h1⟩
    · exact ⟨x, t, rfl, Or.inr h2⟩

/-- Pieces of `splitDelim` consist of non-delimiter characters of the
input. -/
theorem splitDelim_piece_chars :
    ∀ (l p : List Char), p ∈ splitDelim l →
      ∀ c ∈ p, c ∈ l ∧ delimChar c = false := by
  intro l
  induction l with
  | nil =>
    intro p hp c hc
    simp only [splitDelim, List.mem_singleton] at hp
    subst hp
    simp at hc
  | cons a as ih =>
    intro p hp c hc
    simp only [splitDelim] at hp
    by_cases hd : delimChar a
    · rw [if_pos hd] at hp
      rcases List.mem_cons.mp hp with h1 | h2
      · subst h1; simp at hc
      · obtain ⟨hmem, hnd⟩ := ih p h2 c hc
        exact ⟨List.mem_cons_of_mem a hmem, hnd⟩
    · rw [if_neg hd] at hp
      obtain ⟨x, t, hxt, hor⟩ := mem_modifyHead _ _ p hp
      rcases hor with h1 | h2
      · subst h1
        rcases List.mem_cons.mp hc with rfl | hc2
        · exact ⟨List.mem_cons_self _ _, by simpa using hd⟩
        · have hx : x ∈ splitDelim as := by
            rw [hxt]; exact List.mem_cons_self x t
          obtain ⟨hmem, hnd⟩ := ih x hx c hc2
          exact ⟨List.mem_cons_of_mem a hmem, hnd⟩
      · have ht : p ∈ splitDelim as := by
          rw [hxt]; exact List.mem_cons_of_mem x h2
        obtain ⟨hmem, hnd⟩ := ih p ht c hc
        exact ⟨List.mem_cons_of_mem a hmem, hnd⟩

/-- A delimiter-free text is a single `splitDelim` piece. -/
theorem splitDelim_no_delim :
    ∀ l : List Char, (∀ c ∈ l, delimChar c = false) → splitDelim l = [l] := by
  intro l
  induction l with
  | nil => intro _; rfl
  | cons a as ih =>
    intro h
    have ha : delimChar a = false := h a (List.mem_cons_self a as)
    simp only [splitDelim, ha, Bool.false_eq_true, if_false,
      ih (fun c hc => h c (List.mem_cons_of_mem a hc)), List.modifyHead]

/-- `sepTail` yields a suffix of its input. -/
theorem sepTail_mem (r rest : List Char) (h : sepTail r = some rest) :
    ∀ c ∈ rest, c ∈ r := by
  unfold sepTail at h
  split at h
  · simp at h
  · rw [Option.some.injEq] at h
    subst h
    intro c hc
    exact (List.dropWhile_sublist _).mem hc

/-- The rest after an and/or separator consists of characters of the
input. -/
theorem sepMatch_subset (cs rest : List Char) (h : sepMatch cs = some rest) :
    ∀ c ∈ rest, c ∈ cs := by
  have hdw : ∀ c ∈ cs.dropWhile jsWs, c ∈ cs :=
    fun c hc => (List.dropWhile_sublist _).mem hc
  unfold sepMatch at h
  split at h
  · simp at h
  · cases hd : cs.dropWhile jsWs with
    | nil => rw [hd] at h; simp at h
    | cons a as =>
      rw [hd] at h
      rw [hd] at hdw
      cases as with
      | nil => simp at h
      | cons b bs =>
        cases bs with
        | nil => simp at h
        | cons x r =>
          simp only [] at h
          split at h
          · intro c hc
            exact hdw c (List.mem_cons_of_mem a (List.mem_cons_of_mem b
              (List.mem_cons_of_mem x (sepTail_mem r rest h c hc))))
          · split at h
            · intro c hc
              exact hdw c (List.mem_cons_of_mem a (List.mem_cons_of_mem b
                (sepTail_mem (x :: r) rest h c hc)))
            · simp at h

/-- The and/or split always yields at least one piece. -/
theorem andOrSplitF_ne_nil : ∀ (fuel : Nat) (l : List Char), andOrSplitF fuel l ≠ [] := by
  intro fuel
  induction fuel with
  | zero => intro l h; exact List.cons_ne_nil l [] h
  | succ n ih =>
    intro l
    cases l with
    | nil => intro h; exact List.cons_ne_nil [] [] h
    | cons a as =>
      have hunf : andOrSplitF (n + 1) (a :: as) =
          match sepMatch (a :: as) with
          | some rest => [] :: andOrSplitF n rest
          | none => (andOrSplitF n as).modifyHead (a :: ·) := rfl
      cases hs : sepMatch (a :: as) with
      | some rest =>
        rw [hunf, hs]
        exact List.cons_ne_nil [] _
      | none =>
        rw [hunf, hs]
        cases hr : andOrSplitF n as with
        | nil => exact absurd hr (ih as)
        | cons x t =>
          exact List.cons_ne_nil _ _

/-- Pieces of the and/or split consist of characters of the input. -/
theorem andOrSplitF_chars :
    ∀ (fuel : Nat) (l p : List Char), p ∈ andOrSplitF fuel l → ∀ c ∈ p, c ∈ l := by
  intro fuel
  induction fuel with
  | zero =>
    intro l p hp c hc
    have hp0 : p ∈ [l] := hp
    rcases List.mem_singleton.mp hp0 with rfl
    exact hc
  | succ n ih =>
    intro l p hp c hc
    cases l with
    | nil =>
      have hp0 : p ∈ [([] : List Char)] := hp
      rcases List.mem_singleton.mp hp0 with rfl
      simp at hc
    | cons a as =>
      have hunf : andOrSplitF (n + 1) (a :: as) =
          match sepMatch (a :: as) with
          | some rest => [] :: andOrSplitF n rest
          | none => (andOrSplitF n as).modifyHead (a :: ·) := rfl
      rw [hunf] at hp
      cases hs : sepMatch (a :: as) with
      | some rest =>
        rw [hs] at hp
        have hp1 : p ∈ [] :: andOrSplitF n rest := hp
        rcases List.mem_cons.mp hp1 with h1 | h2
        · subst h1; simp at hc
        · exact sepMatch_subset _ _ hs c (ih rest p h2 c hc)
      | none =>
        rw [hs] at hp
        have hp1 : p ∈ (andOrSplitF n as).modifyHead (a :: ·) := hp
        obtain ⟨x, t, hxt, hor⟩ := mem_modifyHead _ _ p hp1
        rcases hor with h1 | h2
        · subst h1
          rcases List.mem_cons.mp hc with rfl | hc2
          · exact List.mem_cons_self _ _
          · have hx : x ∈ andOrSplitF n as := by
              rw [hxt]; exact List.mem_cons_self x t
            exact List.mem_cons_of_mem a (ih as x hx c hc2)
        · have hp2 : p ∈ andOrSplitF n as := by
            rw [hxt]; exact List.mem_cons_of_mem x h2
          exact List.mem_cons_of_mem a (ih as p hp2 c hc)

/-- A one-piece and/or split is the whole input. -/
theorem andOrSplitF_len_one :
    ∀ (fuel : Nat) (l : List Char), (andOrSplitF fuel l).length = 1 →
      andOrSplitF fuel l = [l] := by
  intro fuel
  induction fuel with
  | zero => intro l _; rfl
  | succ n ih =>
    intro l
    cases l with
    | nil => intro _; rfl
    | cons a as =>
      have hunf : andOrSplitF (n + 1) (a :: as) =
          match sepMatch (a :: as) with
          | some rest => [] :: andOrSplitF n rest
          | none => (andOrSplitF n as).modifyHead (a :: ·) := rfl
      cases hs : sepMatch (a :: as) with
      | some rest =>
        rw [hunf, hs]
        intro hlen
        have hlen1 : ([] :: andOrSplitF n rest).length = 1 := hlen
        have hlen2 : (andOrSplitF n rest).length = 0 := by simpa using hlen1
        exact absurd (List.length_eq_zero.mp hlen2) (andOrSplitF_ne_nil n rest)
      | none =>
        rw [hunf, hs]
        intro hlen
        have hlen2 : ((andOrSplitF n as).modifyHead (a :: ·)).length = 1 := hlen
        rw [modifyHead_len] at hlen2
        show (andOrSplitF n as).modifyHead (a :: ·) = [a :: as]
        rw [ih as hlen2]
        rfl

/-- Values produced by `splitValuesL` on a span of group-2 characters are
good. -/
theorem splitValuesL_good (t : List Char) (hT : ∀ c ∈ t, notSemiNl c = true)
    (v : List Char) (hv : v ∈ splitValuesL t) : GoodValue v := by
  simp only [splitValuesL] at hv
  by_cases hlen : ((splitDelim t).map jsTrim).length = 1
  · rw [if_pos hlen] at hv
    rcases List.mem_filter.mp hv with ⟨hmem, hne⟩
    rcases List.mem_map.mp hmem with ⟨u, hu, rfl⟩
    have hnd : t.any delimChar = false := by
      rw [← splitDelim_length_one]
      rw [List.length_map] at hlen
      exact hlen
    refine ⟨by simpa using hne, jsTrim_idem u, ?_⟩
    intro c hc
    have hct : c ∈ t := andOrSplitF_chars _ _ u hu c (mem_of_mem_jsTrim hc)
    refine ⟨?_, hT c hct⟩
    cases hdc : delimChar c
    · rfl
    · exact absurd (List.any_eq_true.mpr ⟨c, hct, hdc⟩) (by simp [hnd])
  · rw [if_neg hlen] at hv
    rcases List.mem_filter.mp hv with ⟨hmem, hne⟩
    rcases List.mem_map.mp hmem with ⟨u, hu, rfl⟩
    refine ⟨by simpa using hne, jsTrim_idem u, ?_⟩
    intro c hc
    obtain ⟨hct, hnd⟩ := splitDelim_piece_chars t u hu c (mem_of_mem_jsTrim hc)
    exact ⟨hnd, hT c hct⟩

/-- The head of an `ExtShape` extension is whitespace. -/
theorem extShape_head_ws (e : List Char) (he : ExtShape e) :
    ∀ c, e.head? = some c → jsWs c = true := by
  induction he with
  | nil => intro c h; simp at h
  | step s w e2 hs halls hw hallw he2 ih =>
    intro c h
    rw [List.append_assoc, head?_append_left s _ hs] at h
    cases hsd : s with
    | nil => exact absurd hsd hs
    | cons a as =>
      rw [hsd] at h
      simp only [List.head?_cons, Option.some.injEq] at h
      subst h
      exact halls a (by rw [hsd]; exact List.mem_cons_self a as)

/-- The last character of a non-empty `ExtShape` extension is a word
character. -/
theorem extShape_last_word (e : List Char) (he : ExtShape e) :
    ∀ c, e.getLast? = some c → wordChar c = true := by
  induction he with
  | nil => intro c h; simp at h
  | step s w e2 hs halls hw hallw he2 ih =>
    intro c h
    by_cases hee : e2 = []
    · subst hee
      rw [List.append_nil, getLast?_append_right s w hw] at h
      exact hallw c (mem_of_getLast? w c h)
    · rw [List.append_assoc,
        getLast?_append_right s _ (by
          intro hn
          exact hw (List.append_eq_nil.mp hn).1),
        getLast?_append_right w e2 hee] at h
      exact ih c h

/-- The head of a well-shaped key is a word character. -/
theorem keyGood_head_word (k : List Char) (hk : KeyGood k) :
    ∀ c, k.head? = some c → wordChar c = true := by
  obtain ⟨w, e, rfl, hw, hallw, he⟩ := hk
  intro c h
  rw [head?_append_left w e hw] at h
  cases hwd : w with
  | nil => exact absurd hwd hw
  | cons a as =>
    rw [hwd] at h
    simp only [List.head?_cons, Option.some.injEq] at h
    subst h
    exact hallw a (by rw [hwd]; exact List.mem_cons_self a as)

/-- The last character of a well-shaped key is a word character. -/
theorem keyGood_last_word (k : List Char) (hk : KeyGood k) :
    ∀ c, k.getLast? = some c → wordChar c = true := by
  obtain ⟨w, e, rfl, hw, hallw, he⟩ := hk
  intro c h
  by_cases hee : e = []
  · subst hee
    rw [List.append_nil] at h
    exact hallw c (mem_of_getLast? w c h)
  · rw [getLast?_append_right w e hee] at h
    exact extShape_last_word e he c h

/-- A well-shaped key is its own trim. -/
theorem keyGood_trim (k : List Char) (hk : KeyGood k) : jsTrim k = k :=
  jsTrim_of_ends k
    (fun c h => wordChar_not_ws c (keyGood_head_word k hk c h))
    (fun c h => wordChar_not_ws c (keyGood_last_word k hk c h))

/-- A well-shaped key is non-empty. -/
theorem keyGood_ne (k : List Char) (hk : KeyGood k) : k ≠ [] := by
  obtain ⟨w, e, rfl, hw, _, _⟩ := hk
  intro hn
  exact hw (List.append_eq_nil.mp hn).1

/-- Every field produced by the extraction loop has a well-shaped (trimmed)
key and good values. -/
theorem extractLoopF_fields_good :
    ∀ (fuel : Nat) (cs : List Char) (f : StructuredField),
      f ∈ extractLoopF fuel cs →
      KeyGood f.key.data ∧ ∀ v ∈ f.values, GoodValue v.data := by
  intro fuel
  induction fuel with
  | zero => intro cs f h; simp [extractLoopF] at h
  | succ n ih =>
    intro cs f h
    rw [extractLoopF] at h
    cases hm : findMatch cs with
    | none => rw [hm] at h; simp at h
    | some r =>
      obtain ⟨s, label, g2, rest⟩ := r
      rw [hm] at h
      rcases List.mem_append.mp h with h1 | h2
      · by_cases hv : splitValuesL (jsTrim g2) ≠ []
        · rw [if_pos hv] at h1
          rcases List.mem_singleton.mp h1 with rfl
          obtain ⟨_, _, hkey, _, hg2all⟩ := findMatch_props cs s label g2 rest hm
          constructor
          · show KeyGood (String.mk (jsTrim label)).data
            have ht : jsTrim label = label := keyGood_trim label hkey
            show KeyGood (jsTrim label)
            rw [ht]
            exact hkey
          · intro v hv2
            rcases List.mem_map.mp hv2 with ⟨p, hp, rfl⟩
            show GoodValue p
            exact splitValuesL_good (jsTrim g2)
              (fun c hc => hg2all c (mem_of_mem_jsTrim hc)) p hp
        · rw [if_neg hv] at h1
          simp at h1
      · exact ih rest f h2

/-- Witness for `c2_single_paragraph`. -/
theorem c2_single_paragraph_witness :
    (splitIntoParagraphs (normalizeText "ab\n\ncd")).length ≤ 1 ∧
    splitIntoParagraphs (normalizeText "ab\n\ncd") = [normalizeText "ab\n\ncd"] :=
  ⟨c2_single_paragraph.1 "ab\n\ncd",
   c2_single_paragraph.2.1 "ab\n\ncd" (by decide)⟩

/-- Rounding to two decimals is monotone. -/
theorem round2_mono {a b : ℚ} (h : a ≤ b) : round2 a ≤ round2 b := by
  unfold round2
  have h2 : (⌊a * 100 + 1 / 2⌋ : ℤ) ≤ ⌊b * 100 + 1 / 2⌋ :=
    Int.floor_le_floor (by linarith)
  have h3 : ((⌊a * 100 + 1 / 2⌋ : ℤ) : ℚ) ≤ ((⌊b * 100 + 1 / 2⌋ : ℤ) : ℚ) := by
    exact_mod_cast h2
  linarith

/-- Rounding preserves nonnegativity. -/
theorem round2_nonneg {a : ℚ} (h : 0 ≤ a) : 0 ≤ round2 a := by
  unfold round2
  have h2 : (0 : ℤ) ≤ ⌊a * 100 + 1 / 2⌋ := Int.floor_nonneg.2 (by linarith)
  have h3 : (0 : ℚ) ≤ ((⌊a * 100 + 1 / 2⌋ : ℤ) : ℚ) := by exact_mod_cast h2
  linarith

/-- Rounding keeps values at most one. -/
theorem round2_le_one {a : ℚ} (h : a ≤ 1) : round2 a ≤ 1 := by
  unfold round2
  have h2 : (⌊a * 100 + 1 / 2⌋ : ℤ) < 101 := by
    rw [Int.floor_lt]
    push_cast
    linarith
  have h3 : ((⌊a * 100 + 1 / 2⌋ : ℤ) : ℚ) ≤ 100 := by
    exact_mod_cast Int.lt_add_one_iff.mp h2
  linarith

/-- The adjusted confidence stays in `[0, 1]` for raw scores in `[0, 1]`. -/
theorem calculateConfidence_bounds (text : String) (s : ℚ)
    (h0 : 0 ≤ s) (h1 : s ≤ 1) :
    0 ≤ calculateConfidence text s ∧ calculateConfidence text s ≤ 1 := by
  simp only [calculateConfidence]
  constructor
  · apply round2_nonneg
    split_ifs with h20 h100
    · exact le_max_left 0 _
    · exact le_max_left 0 _
    · exact le_min (by norm_num) (by linarith)
    · exact h0
  · apply round2_le_one
    split_ifs with h20 h100
    · exact max_le (by norm_num) (by have := min_le_left 1 (s + 1 / 20); linarith)
    · exact max_le (by norm_num) (by linarith)
    · exact min_le_left 1 _
    · exact h1

/-- The adjusted confidence is monotone in the raw score. -/
theorem calculateConfidence_mono (text : String) {s s' : ℚ} (h : s ≤ s') :
    calculateConfidence text s ≤ calculateConfidence text s' := by
  simp only [calculateConfidence]
  apply round2_mono
  split_ifs with h20 h100
  · have hm : min 1 (s + 1 / 20) ≤ min 1 (s' + 1 / 20) :=
      min_le_min le_rfl (by linarith)
    exact max_le_max le_rfl (by linarith)
  · exact max_le_max le_rfl (by linarith)
  · exact min_le_min le_rfl (by linarith)
  · exact h

/-- C7: `calculateConfidence` applies the raw score with the length bonus
capped at 1, the shortness penalty floored at 0, and two-decimal rounding (the
definition above); for every raw score in `[0, 1]` and every text, the
adjusted confidence lies in `[0, 1]` and, for a fixed text, is monotonically
non-decreasing in the raw score. -/
theorem c7_confidence_bounds_mono (text : String) (s s' : ℚ)
    (h0 : 0 ≤ s) (h1 : s ≤ 1) (hss : s ≤ s') (h1' : s' ≤ 1) :
    0 ≤ calculateConfidence text s ∧ calculateConfidence text s ≤ 1 ∧
      calculateConfidence text s ≤ calculateConfidence text s' :=
  ⟨(calculateConfidence_bounds text s h0 h1).1,
   (calculateConfidence_bounds text s h0 h1).2,
   calculateConfidence_mono text hss⟩

/-- Witness for `c7_confidence_bounds_mono`. -/
theorem c7_confidence_witness :
    0 ≤ calculateConfidence "short" (1 / 4) ∧
    calculateConfidence "short" (1 / 4) ≤ 1 ∧
    calculateConfidence "short" (1 / 4) ≤ calculateConfidence "short" (1 / 2) :=
  c7_confidence_bounds_mono "short" (1 / 4) (1 / 2)
    (by norm_num) (by norm_num) (by norm_num) (by norm_num)

/-- Two-decimal rounding never exceeds 1/20 on inputs at most 1/20. -/
theorem round2_le_twentieth {q : ℚ} (h : q ≤ 1 / 20) : round2 q ≤ 1 / 20 := by
  unfold round2
  have h2 : (⌊q * 100 + 1 / 2⌋ : ℤ) < 6 := by
    rw [Int.floor_lt]
    push_cast
    linarith
  have h3 : ((⌊q * 100 + 1 / 2⌋ : ℤ) : ℚ) ≤ 5 := by
    exact_mod_cast Int.lt_add_one_iff.mp h2
  linarith

/-- A zero raw score is adjusted to at most 1/20 (the length bonus). -/
theorem calculateConfidence_zero (p : String) :
    calculateConfidence p 0 ≤ 1 / 20 := by
  simp only [calculateConfidence]
  apply round2_le_twentieth
  split_ifs with h20 h100
  · exact max_le (by norm_num)
      (by have := min_le_right 1 ((0 : ℚ) + 1 / 20); linarith)
  · exact max_le (by norm_num) (by norm_num)
  · have := min_le_right 1 ((0 : ℚ) + 1 / 20)
    linarith
  · norm_num

/-- A failing scorer degrades to a zero score for every requested label; no
error escapes `classify`. -/
theorem classify_error
    (scorer : String → List String → Except String (List ClassificationResult))
    (labels : List String) (text : String) (e : String)
    (he : scorer text labels = .error e) :
    classify scorer text labels = labels.map (fun l => ⟨l, 0⟩) := by
  unfold classify
  split
  · rfl
  · rw [he]

/-- With a failing scorer and a threshold above 1/20, the paragraph yields no
unit. -/
theorem processParagraph_error
    (scorer : String → List String → Except String (List ClassificationResult))
    (labels : List String) (th : ℚ) (i : Nat) (text : String) (e : String)
    (hth : 1 / 20 < th) (he : scorer text labels = .error e) :
    processParagraph scorer th labels i text = none := by
  simp only [processParagraph]
  split
  · rfl
  · rw [classify_error scorer labels text e he]
    cases labels with
    | nil => rfl
    | cons l ls =>
      have hnle : ¬ th ≤ calculateConfidence text (0 : ℚ) := by
        have := calculateConfidence_zero text
        linarith
      simp only [List.map_cons]
      show (if th ≤ calculateConfidence text (0 : ℚ) then
          some (ExtractedContent.mk "" l text (calculateConfidence text (0 : ℚ))
            none (some i) none)
        else none) = none
      exact if_neg hnle

/-- C8 (amended): a scorer failure is not propagated — `classify` returns a
zero score for every requested label — and the paragraph is filtered out by
any threshold greater than 1/20 = 0.05 (the length bonus can lift a zero
score to an adjusted confidence of exactly 0.05, so strictly positive
thresholds at or below 0.05 can still admit the paragraph); with such a
threshold a scorer that always fails leaves `analyzeText` processing every
paragraph and returning an empty result rather than raising. -/
theorem c8_scoring_degradation
    (scorer : String → List String → Except String (List ClassificationResult))
    (labels : List String) (th : ℚ) :
    (∀ (text : String) (e : String), scorer text labels = .error e →
      classify scorer text labels = labels.map (fun l => ⟨l, 0⟩)) ∧
    (1 / 20 < th → ∀ (text : String) (i : Nat) (e : String),
      scorer text labels = .error e →
      processParagraph scorer th labels i text = none) ∧
    (1 / 20 < th → (∀ t : String, ∃ e, scorer t labels = .error e) →
      ∀ doctext : String, analyzeText scorer th labels doctext = []) := by
  refine ⟨fun text e he => classify_error scorer labels text e he,
    fun hth text i e he => processParagraph_error scorer labels th i text e hth he,
    ?_⟩
  intro hth hall doctext
  unfold analyzeText
  rw [List.filterMap_eq_nil_iff]
  intro p _
  obtain ⟨e, he⟩ := hall p.2
  exact processParagraph_error scorer labels th p.1 p.2 e hth he

/-- Witness for `c8_scoring_degradation`. -/
theorem c8_scoring_witness :
    classify (fun _ _ => .error "x") "hello" ["a", "b"] = [⟨"a", 0⟩, ⟨"b", 0⟩] ∧
    processParagraph (fun _ _ => .error "x") (1 / 10) ["a", "b"] 0 "hello world" = none ∧
    analyzeText (fun _ _ => .error "x") (1 / 10) ["a", "b"] "hello world" = [] :=
  ⟨(c8_scoring_degradation (fun _ _ => .error "x") ["a", "b"] (1 / 10)).1 "hello" "x" rfl,
   (c8_scoring_degradation (fun _ _ => .error "x") ["a", "b"] (1 / 10)).2.1
     (by norm_num) "hello world" 0 "x" rfl,
   (c8_scoring_degradation (fun _ _ => .error "x") ["a", "b"] (1 / 10)).2.2
     (by norm_num) (fun t => ⟨"x", rfl⟩) "hello world"⟩

set_option maxRecDepth 8000 in
/-- C8, counterexample: with the strictly positive threshold 1/100 and a
101-character paragraph, a scorer failure still produces a unit — the
all-zero scores gain the 0.05 length bonus, which passes the threshold — so a
failing paragraph is not filtered out by every positive threshold. -/
theorem c8_counterexample :
    0 < (1 : ℚ) / 100 ∧
    analyzeText (fun _ _ => .error "boom") ((1 : ℚ) / 100) ["text"]
      (String.mk (List.replicate 101 'a')) ≠ [] := by
  constructor
  · norm_num
  · have hp : splitIntoParagraphs (normalizeText (String.mk (List.replicate 101 'a'))) =
        [String.mk (List.replicate 101 'a')] := by decide
    unfold analyzeText
    rw [hp]
    have henum : List.enum [String.mk (List.replicate 101 'a')] =
        [(0, String.mk (List.replicate 101 'a'))] := rfl
    rw [henum, List.filterMap_cons]
    have hproc : processParagraph (fun _ _ => .error "boom") ((1 : ℚ) / 100) ["text"] 0
        (String.mk (List.replicate 101 'a')) =
        some (ExtractedContent.mk "" "text" (String.mk (List.replicate 101 'a'))
          (1 / 20) none (some 0) none) := by
      simp only [processParagraph]
      have hlen : ¬ (String.mk (List.replicate 101 'a')).length < 10 := by decide
      rw [if_neg hlen]
      have hcl : classify (fun _ _ => .error "boom")
          (String.mk (List.replicate 101 'a')) ["text"] =
          [ClassificationResult.mk "text" 0] := by
        unfold classify
        have hne : ¬ jsTrim (String.mk (List.replicate 101 'a')).data = [] := by decide
        rw [if_neg hne]
        rfl
      rw [hcl]
      have hconf : calculateConfidence (String.mk (List.replicate 101 'a')) 0 = 1 / 20 := by
        simp only [calculateConfidence]
        have h100 : 100 < (String.mk (List.replicate 101 'a')).length := by decide
        have h20 : ¬ (String.mk (List.replicate 101 'a')).length < 20 := by decide
        rw [if_pos h100, if_neg h20]
        have hmin : min (1 : ℚ) (0 + 1 / 20) = 1 / 20 := by norm_num
        rw [hmin]
        unfold round2
        norm_num
      show (if (1 : ℚ) / 100 ≤ calculateConfidence (String.mk (List.replicate 101 'a')) 0 then
          some (ExtractedContent.mk "" "text" (String.mk (List.replicate 101 'a'))
            (calculateConfidence (String.mk (List.replicate 101 'a')) 0) none (some 0) none)
        else none) =
        some (ExtractedContent.mk "" "text" (String.mk (List.replicate 101 'a'))
          (1 / 20) none (some 0) none)
      rw [hconf, if_pos (by norm_num : (1 : ℚ) / 100 ≤ 1 / 20)]
    rw [hproc]
    simp

/-- Bool `any` distributes over a disjunction of predicates. -/
theorem any_or_split (l : List Char) (p q : Char → Bool) :
    l.any (fun c => p c || q c) = (l.any p || l.any q) := by
  induction l with
  | nil => rfl
  | cons c cs ih =>
    simp only [List.any_cons, ih]
    cases p c <;> cases q c <;> simp

/-- `doubleQuotes` is the flat map doubling each double quote. -/
theorem doubleQuotes_eq (l : List Char) :
    doubleQuotes l = l.flatMap (fun c => if c = '"' then ['"', '"'] else [c]) := by
  induction l with
  | nil => rfl
  | cons c cs ih =>
    by_cases hc : c = '"'
    · simp [doubleQuotes, List.flatMap_cons, hc, ih]
    · simp [doubleQuotes, List.flatMap_cons, hc, ih]

/-- `escapeCsvRow` implements the spec's field-quoting rule, cell by cell. -/
theorem escapeCsvRow_eq_spec (row : List String) :
    escapeCsvRow row = String.intercalate "," (row.map csvFieldSpec) := by
  unfold escapeCsvRow
  congr 1
  apply List.map_congr_left
  intro cell _
  have hcond : needsQuote cell =
      (cell.data.any (· = ',') || cell.data.any (· = '"') ||
        cell.data.any (· = '\n')) := by
    unfold needsQuote
    rw [any_or_split cell.data (fun c => c = ',' || c = '"') (fun c => c = '\n'),
      any_or_split cell.data (fun c => c = ',') (fun c => c = '"')]
  unfold csvFieldSpec
  rw [hcond]
  split
  · rw [String.ext_iff]
    simp only [String.data_append, doubleQuotes_eq]
    rfl
  · rfl

/-- C10: for every extraction result, the CSV row list is the fixed header row
followed by exactly one row per content unit in sequence order (content line
breaks collapsed to spaces, each field quoted by the standard rule), with the
commented metadata/summary lines appended exactly when metadata inclusion is
requested. -/
theorem c10_csv_rows (r : ExtractionResultM) (includeMetadata : Bool) :
    generateCsvRows r includeMetadata =
      csvRowsSpec r ++ (if includeMetadata then csvMetaRows r else []) ∧
    (csvRowsSpec r).length = 1 + r.contents.length := by
  have hcell : ∀ c ∈ r.contents,
      escapeCsvRow (csvUnitCells c) = String.intercalate ","
        ([c.id, c.type,
          String.mk (c.content.data.map (fun ch => if ch = '\n' then ' ' else ch)),
          renderScore c.confidence,
          (c.page.map toString).getD "",
          (c.paragraph.map toString).getD "",
          if c.tableData.isSome then "Yes" else "No"].map csvFieldSpec) := by
    intro c _
    have hcells : csvUnitCells c =
        [c.id, c.type,
         String.mk (c.content.data.map (fun ch => if ch = '\n' then ' ' else ch)),
         renderScore c.confidence,
         (c.page.map toString).getD "",
         (c.paragraph.map toString).getD "",
         if c.tableData.isSome then "Yes" else "No"] := rfl
    rw [escapeCsvRow_eq_spec, hcells]
  constructor
  · unfold generateCsvRows csvRowsSpec
    rw [escapeCsvRow_eq_spec, List.map_congr_left hcell]
    simp only [List.cons_append]
  · unfold csvRowsSpec
    rw [List.length_cons, List.length_map, Nat.add_comm]

/-- A detected header makes the remaining rows the data rows. -/
theorem mkTable_some (block : List (List String)) (hs : List String)
    (h : detectHeaders block = some hs) : mkTable block = ⟨some hs, block.tail⟩ := by
  unfold mkTable
  rw [h]

/-- Without a detected header every row is a data row. -/
theorem mkTable_none (block : List (List String))
    (h : detectHeaders block = none) : mkTable block = ⟨none, block⟩ := by
  unfold mkTable
  rw [h]

/-- Consecutive qualifying lines are accumulated onto the current block. -/
theorem extractTablesLoop_run :
    ∀ (q rest : List String) (cur : List (List String)),
      (∀ l ∈ q, isTableRow l = true) →
      extractTablesLoop cur (q ++ rest) =
        extractTablesLoop (cur ++ q.map (fun l => splitTableRow (strTrim l))) rest := by
  intro q
  induction q with
  | nil => intro rest cur _; simp
  | cons a q ih =>
    intro rest cur hq
    have ha : isTableRow a = true := hq a (List.mem_cons_self a q)
    have ha2 : 2 ≤ (splitTableRow (strTrim a)).length := by
      simpa [isTableRow] using ha
    simp only [List.cons_append, extractTablesLoop, List.append_eq]
    rw [if_pos ha2,
      ih rest (cur ++ [splitTableRow (strTrim a)])
        (fun l hl => hq l (List.mem_cons_of_mem a hl))]
    simp [List.append_assoc]

/-- `chunkRunsF` is independent of the fuel once it covers the list. -/
theorem chunkRunsF_stable (p : α → Bool) :
    ∀ (f1 f2 : Nat) (l : List α), l.length < f1 → l.length < f2 →
      chunkRunsF p f1 l = chunkRunsF p f2 l := by
  intro f1
  induction f1 with
  | zero => intro f2 l h _; exact absurd h (Nat.not_lt_zero _)
  | succ n ih =>
    intro f2 l h1 h2
    cases f2 with
    | zero => exact absurd h2 (Nat.not_lt_zero _)
    | succ m =>
      cases l with
      | nil => rfl
      | cons a as =>
        simp only [List.length_cons] at h1 h2
        simp only [chunkRunsF]
        by_cases hp : p a
        · rw [if_pos hp, if_pos hp,
            ih m (as.dropWhile p)
              (lt_of_le_of_lt (dropWhile_length_le p as) (by omega))
              (lt_of_le_of_lt (dropWhile_length_le p as) (by omega))]
        · rw [if_neg hp, if_neg hp]
          exact ih m as (by omega) (by omega)

/-- `chunkRunsF` with covering fuel computes `chunkRuns`. -/
theorem chunkRunsF_eq_chunkRuns (p : α → Bool) (f : Nat) (l : List α)
    (h : l.length < f) : chunkRunsF p f l = chunkRuns p l :=
  chunkRunsF_stable p f (l.length + 1) l h (Nat.lt_succ_self _)

/-- One step of `chunkRunsF`. -/
theorem chunkRunsF_cons (p : α → Bool) (f : Nat) (a : α) (as : List α) :
    chunkRunsF p (f + 1) (a :: as) =
      if p a then (a :: as.takeWhile p) :: chunkRunsF p f (as.dropWhile p)
      else chunkRunsF p f as := rfl

/-- Closing the block at a non-qualifying line (or end of input) flushes it
iff it has at least two rows. -/
theorem extractTablesLoop_flush :
    ∀ (cur : List (List String)) (rest : List String),
      (∀ b ∈ rest.head?, isTableRow b = false) →
      extractTablesLoop cur rest =
        (if 1 < cur.length then [mkTable cur] else []) ++ extractTablesLoop [] rest := by
  intro cur rest h
  cases rest with
  | nil => simp [extractTablesLoop]
  | cons b bs =>
    have hb : isTableRow b = false := h b rfl
    have hb2 : ¬ 2 ≤ (splitTableRow (strTrim b)).length := by
      simpa [isTableRow] using hb
    simp only [extractTablesLoop]
    rw [if_neg hb2, if_neg hb2]
    simp

/-- The stateful line loop of `extractTables` produces exactly one table per
maximal run of qualifying lines of length at least two. -/
theorem extractTablesLoop_chunks :
    ∀ (fuel : Nat) (ls : List String), ls.length < fuel →
      extractTablesLoop [] ls =
        (((chunkRuns isTableRow ls).map
          (fun b => b.map (fun l => splitTableRow (strTrim l)))).filter
          (fun b => 1 < b.length)).map mkTable := by
  intro fuel
  induction fuel with
  | zero => intro ls h; exact absurd h (Nat.not_lt_zero _)
  | succ n ih =>
    intro ls hlen
    cases ls with
    | nil => rfl
    | cons a as =>
      simp only [List.length_cons] at hlen
      by_cases ha : isTableRow a = true
      · have hqd : a :: as =
            (a :: as.takeWhile isTableRow) ++ as.dropWhile isTableRow := by
          rw [List.cons_append, List.takeWhile_append_dropWhile]
        have hqall : ∀ l ∈ a :: as.takeWhile isTableRow, isTableRow l = true := by
          intro l hl
          rcases List.mem_cons.mp hl with rfl | hl2
          · exact ha
          · exact List.mem_takeWhile_imp hl2
        have hrlen : (as.dropWhile isTableRow).length ≤ as.length :=
          dropWhile_length_le _ as
        have hhead : ∀ b ∈ (as.dropWhile isTableRow).head?, isTableRow b = false := by
          intro b hb
          cases hr : as.dropWhile isTableRow with
          | nil => rw [hr] at hb; simp at hb
          | cons x xs =>
            rw [hr] at hb
            simp only [List.head?_cons, Option.mem_def, Option.some.injEq] at hb
            subst hb
            exact dropWhile_head_false isTableRow as _ _ hr
        have hL : extractTablesLoop [] (a :: as) =
            extractTablesLoop
              ((a :: as.takeWhile isTableRow).map (fun l => splitTableRow (strTrim l)))
              (as.dropWhile isTableRow) := by
          conv_lhs => rw [hqd]
          rw [extractTablesLoop_run _ _ [] hqall]
          simp
        have hC : chunkRuns isTableRow (a :: as) =
            (a :: as.takeWhile isTableRow) :: chunkRuns isTableRow (as.dropWhile isTableRow) := by
          show chunkRunsF isTableRow (as.length + 1 + 1) (a :: as) = _
          rw [chunkRunsF_cons, if_pos ha,
            chunkRunsF_eq_chunkRuns isTableRow (as.length + 1) _
              (Nat.lt_succ_of_le hrlen)]
        rw [hL, hC,
          extractTablesLoop_flush _ _ hhead,
          ih (as.dropWhile isTableRow) (lt_of_le_of_lt hrlen (by omega))]
        simp only [List.map_cons, List.filter_cons]
        by_cases hq2 : 0 < (List.takeWhile isTableRow as).length
        · simp [hq2]
        · simp [hq2]
      · have ha2 : ¬ 2 ≤ (splitTableRow (strTrim a)).length := by
          simpa [isTableRow] using ha
        have hC2 : chunkRuns isTableRow (a :: as) = chunkRuns isTableRow as := by
          show chunkRunsF isTableRow (as.length + 1 + 1) (a :: as) = _
          rw [chunkRunsF_cons, if_neg ha]
          rfl
        simp only [extractTablesLoop]
        rw [if_neg ha2, hC2, ih as (by omega)]
        simp

/-- C5: for every input text, the heuristic table detector yields exactly one
`TableData` per maximal group of consecutive lines whose trimmed form splits
into at least two cells, provided the group has at least two lines (groups
still open at end of input included); shorter groups yield nothing, and every
produced table has at least one row. -/
theorem c5_table_blocks (text : String) :
    extractTables text =
      (((chunkRuns isTableRow ((splitNlL text.data).map String.mk)).map
        (fun b => b.map (fun l => splitTableRow (strTrim l)))).filter
        (fun b => 1 < b.length)).map mkTable ∧
    ∀ t ∈ extractTables text, 1 ≤ t.rows.length := by
  have heq := extractTablesLoop_chunks
    (((splitNlL text.data).map String.mk).length + 1)
    ((splitNlL text.data).map String.mk) (Nat.lt_succ_self _)
  refine ⟨heq, ?_⟩
  intro t ht
  rw [show extractTables text =
      extractTablesLoop [] ((splitNlL text.data).map String.mk) from rfl, heq] at ht
  rcases List.mem_map.mp ht with ⟨b, hbmem, rfl⟩
  have hblen : 1 < b.length := by
    have hfb := List.of_mem_filter hbmem
    simpa using hfb
  cases hdet : detectHeaders b with
  | some hs =>
    rw [mkTable_some b hs hdet]
    show 1 ≤ b.tail.length
    rw [List.length_tail]
    omega
  | none =>
    rw [mkTable_none b hdet]
    show 1 ≤ b.length
    omega

/-- Witness for `c5_table_blocks`. -/
theorem c5_table_blocks_witness :
    1 ≤ (TableData.mk (some ["a", "b"]) [["c", "d"]]).rows.length :=
  (c5_table_blocks "a  b\nc  d").2 _ (by decide)

/-- C6: for every non-empty block, the first row is returned as the header iff
at least one of its cells case-insensitively contains one of the tokens name,
type, description, value, or at least one cell contains no digit character;
with a header the rows are the block minus its first row, without one the rows
are the whole block and headers are absent — no other outcome occurs. -/
theorem c6_header_detection (r : List String) (rs : List (List String)) :
    ((mkTable (r :: rs)).headers = some r ↔
      ∃ cell ∈ r, (∃ tok ∈ headerTokens,
          containsSub (cell.data.map asciiLower) tok.data = true) ∨
        (∀ ch ∈ cell.data, digitChar ch = false)) ∧
    ((mkTable (r :: rs)).headers = some r → (mkTable (r :: rs)).rows = rs) ∧
    ((mkTable (r :: rs)).headers = none → (mkTable (r :: rs)).rows = r :: rs) ∧
    ((mkTable (r :: rs)).headers = some r ∨ (mkTable (r :: rs)).headers = none) := by
  have hd : detectHeaders (r :: rs) =
      if (r.any fun cell =>
        headerTokens.any (fun tok => containsSub (cell.data.map asciiLower) tok.data) ||
        !cell.data.any digitChar) then some r else none := rfl
  have hiff : (r.any fun cell =>
        headerTokens.any (fun tok => containsSub (cell.data.map asciiLower) tok.data) ||
        !cell.data.any digitChar) = true ↔
      ∃ cell ∈ r, (∃ tok ∈ headerTokens,
          containsSub (cell.data.map asciiLower) tok.data = true) ∨
        (∀ ch ∈ cell.data, digitChar ch = false) := by
    simp [List.any_eq_true]
  by_cases hc : (r.any fun cell =>
      headerTokens.any (fun tok => containsSub (cell.data.map asciiLower) tok.data) ||
      !cell.data.any digitChar) = true
  · have hdet : detectHeaders (r :: rs) = some r := by rw [hd, if_pos hc]
    have hm := mkTable_some (r :: rs) r hdet
    rw [hm]
    refine ⟨?_, fun _ => rfl, ?_, Or.inl rfl⟩
    · simpa using hiff.mp hc
    · intro hnone
      simp at hnone
  · have hdet : detectHeaders (r :: rs) = none := by rw [hd, if_neg hc]
    have hm := mkTable_none (r :: rs) hdet
    rw [hm]
    refine ⟨?_, ?_, fun _ => rfl, Or.inr rfl⟩
    · constructor
      · intro hsome
        simp at hsome
      · intro hex
        exact absurd (hiff.mpr hex) hc
    · intro hsome
      simp at hsome

/-- Witness for `c6_header_detection`. -/
theorem c6_header_detection_witness :
    (mkTable [["Name"], ["1"]]).rows = [["1"]] :=
  (c6_header_detection ["Name"] [["1"]]).2.1 (by decide)

/-- C9 (amended): an out-of-range confidence threshold is rejected by the
schema parse in the constructor and in `updateConfig`, and by the analyzer
setter; an empty classification label list is rejected by the analyzer setter
— hence by `updateConfig` whenever labels are supplied — but the
`DocumentExtractor` constructor accepts an empty label list, because the
schema does not constrain the array. -/
theorem c9_config_validation :
    (∀ (c : PartialConfig) (t : ℚ), c.confidenceThreshold = some t →
      t < 0 ∨ 1 < t → isOkE (mkDocumentExtractor c) = false) ∧
    (∀ (st : ExtractorConfigType × ContentAnalyzerState) (c : PartialConfig),
      c.classificationLabels = some [] → isOkE (updateConfig st c) = false) ∧
    (∀ (s : ContentAnalyzerState) (t : ℚ), t < 0 ∨ 1 < t →
      isOkE (setConfidenceThreshold s t) = false) ∧
    (∀ s : ContentAnalyzerState, isOkE (setClassificationLabels s []) = false) ∧
    isOkE (mkDocumentExtractor { classificationLabels := some [] }) = true := by
  refine ⟨?_, ?_, ?_, ?_, ?_⟩
  · intro c t hc ht
    simp only [mkDocumentExtractor, schemaParse, hc, Option.getD_some]
    rw [if_pos ht]
    rfl
  · intro st c hc
    rcases hs : schemaParse (spreadConfig st.1 c) with e | cfg
    · simp [updateConfig, hs, isOkE]
    · rcases hth : (match c.confidenceThreshold with
        | some t => setConfidenceThreshold st.2 t
        | none => Except.ok st.2) with e | a1
      · simp [updateConfig, hs, hth, isOkE]
      · simp [updateConfig, hs, hth, hc, setClassificationLabels, isOkE]
  · intro s t ht
    simp only [setConfidenceThreshold]
    rw [if_pos ht]
    rfl
  · intro s
    simp [setClassificationLabels, isOkE]
  · have hcond : ¬ ((1 : ℚ) / 2 < 0 ∨ 1 < (1 : ℚ) / 2) := by norm_num
    simp only [mkDocumentExtractor, schemaParse, Option.getD_none, Option.getD_some]
    rw [if_neg hcond]
    rfl

/-- Witness for `c9_config_validation`. -/
theorem c9_config_witness :
    isOkE (mkDocumentExtractor { confidenceThreshold := some 2 }) = false ∧
    isOkE (setClassificationLabels ⟨1 / 2, ["text"]⟩ []) = false :=
  ⟨c9_config_validation.1 _ 2 rfl (Or.inr (by norm_num)),
   c9_config_validation.2.2.2.1 _⟩

/-- C9, counterexample: the `DocumentExtractor` constructor accepts an empty
classification label list — the zod schema validates only the threshold — so
the configuration is not rejected at configuration time; the resulting
analyzer state carries the empty label list. -/
theorem c9_counterexample :
    mkDocumentExtractor { classificationLabels := some [] } =
      Except.ok (⟨[], 1 / 2, true, "Xenova/distilbert-base-uncased-mnli"⟩,
        ⟨1 / 2, []⟩) := by
  have hcond : ¬ ((1 : ℚ) / 2 < 0 ∨ 1 < (1 : ℚ) / 2) := by norm_num
  simp only [mkDocumentExtractor, schemaParse, Option.getD_none, Option.getD_some]
  rw [if_neg hcond]
  rfl

/-- Unfolding one step of `addUnique`. -/
theorem addUnique_cons (ex : List String) (v : String) (vs : List String) :
    addUnique ex (v :: vs) = addUnique (if v ∈ ex then ex else ex ++ [v]) vs := rfl

/-- `addUnique` only ever appends to the existing list. -/
theorem addUnique_extend : ∀ (vs ex : List String), ∃ t, addUnique ex vs = ex ++ t := by
  intro vs
  induction vs with
  | nil => intro ex; exact ⟨[], by simp [addUnique]⟩
  | cons v vs ih =>
    intro ex
    by_cases hmem : v ∈ ex
    · obtain ⟨t, ht⟩ := ih ex
      refine ⟨t, ?_⟩
      rw [addUnique_cons, if_pos hmem, ht]
    · obtain ⟨t, ht⟩ := ih (ex ++ [v])
      refine ⟨[v] ++ t, ?_⟩
      rw [addUnique_cons, if_neg hmem, ht, List.append_assoc]

/-- Values in an `addUnique` result come from one of the two inputs. -/
theorem addUnique_mem :
    ∀ (vs ex : List String) (v : String), v ∈ addUnique ex vs → v ∈ ex ∨ v ∈ vs := by
  intro vs
  induction vs with
  | nil => intro ex v h; exact Or.inl (by simpa [addUnique] using h)
  | cons a vs ih =>
    intro ex v h
    rw [addUnique_cons] at h
    rcases ih _ v h with h1 | h2
    · by_cases hmem : a ∈ ex
      · rw [if_pos hmem] at h1
        exact Or.inl h1
      · rw [if_neg hmem] at h1
        rcases List.mem_append.mp h1 with h3 | h4
        · exact Or.inl h3
        · rw [List.mem_singleton] at h4
          subst h4
          exact Or.inr (List.mem_cons_self v vs)
    · exact Or.inr (List.mem_cons_of_mem a h2)

/-- `contains` on a string list is membership. -/
theorem contains_iff_mem (l : List String) (a : String) : l.contains a = true ↔ a ∈ l :=
  ⟨fun h => List.mem_of_elem_eq_true h, fun h => List.elem_eq_true_of_mem h⟩

/-- `mergeStep` leaves the key list unchanged on a hit and appends the fresh
key on a miss. -/
theorem mergeStep_keys (m : List (String × List String)) (f : StructuredField) :
    (mergeStep m f).map Prod.fst =
      if (m.map Prod.fst).contains f.key then m.map Prod.fst
      else m.map Prod.fst ++ [f.key] := by
  unfold mergeStep
  by_cases hc : (m.map Prod.fst).contains f.key
  · rw [if_pos hc, if_pos hc, List.map_map]
    refine List.map_congr_left ?_
    intro e _
    by_cases he : e.1 = f.key
    · simp [he]
    · simp [he]
  · rw [if_neg hc, if_neg hc]
    simp

/-- `mergeStep` preserves distinctness of the keys. -/
theorem mergeStep_keys_nodup (m : List (String × List String)) (f : StructuredField)
    (h : (m.map Prod.fst).Nodup) : ((mergeStep m f).map Prod.fst).Nodup := by
  rw [mergeStep_keys]
  by_cases hc : (m.map Prod.fst).contains f.key
  · rw [if_pos hc]
    exact h
  · rw [if_neg hc]
    have hmem : f.key ∉ m.map Prod.fst := fun hm =>
      hc ((contains_iff_mem _ _).mpr hm)
    refine List.Nodup.append h (List.nodup_singleton _) ?_
    intro x hx hxa
    rw [List.mem_singleton] at hxa
    subst hxa
    exact hmem hx

/-- The keys of a merge accumulation stay distinct. -/
theorem foldl_mergeStep_keys_nodup :
    ∀ (fs : List StructuredField) (m : List (String × List String)),
      (m.map Prod.fst).Nodup → ((fs.foldl mergeStep m).map Prod.fst).Nodup := by
  intro fs
  induction fs with
  | nil => intro m h; exact h
  | cons f fs ih => intro m h; exact ih _ (mergeStep_keys_nodup m f h)

/-- `mergeFields` never repeats a key. -/
theorem mergeFields_keys_nodup (fields : List StructuredField) :
    ((mergeFields fields).map Prod.fst).Nodup :=
  foldl_mergeStep_keys_nodup fields [] List.nodup_nil

/-- `mergeStep` preserves goodness of the entries. -/
theorem mergeStep_good (m : List (String × List String)) (f : StructuredField)
    (hm : ∀ e ∈ m, EntryGood e) (hf : FieldGood f) :
    ∀ e ∈ mergeStep m f, EntryGood e := by
  intro e he
  unfold mergeStep at he
  by_cases hc : (m.map Prod.fst).contains f.key
  · rw [if_pos hc] at he
    rcases List.mem_map.mp he with ⟨e0, he0, rfl⟩
    by_cases hk : e0.1 = f.key
    · rw [if_pos hk]
      obtain ⟨hke, hne, hvals⟩ := hm e0 he0
      refine ⟨hke, ?_, ?_⟩
      · obtain ⟨t, ht⟩ := addUnique_extend f.values e0.2
        show addUnique e0.2 f.values ≠ []
        rw [ht]
        intro hnil
        exact hne (List.append_eq_nil.mp hnil).1
      · intro v hv
        rcases addUnique_mem f.values e0.2 v hv with h1 | h2
        · exact hvals v h1
        · exact hf.2.2 v h2
    · rw [if_neg hk]
      exact hm e0 he0
  · rw [if_neg hc] at he
    rcases List.mem_append.mp he with h1 | h2
    · exact hm e h1
    · rw [List.mem_singleton] at h2
      subst h2
      exact ⟨hf.1, hf.2.1, hf.2.2⟩

/-- Goodness of the entries is an invariant of the merge accumulation. -/
theorem foldl_mergeStep_good :
    ∀ (fs : List StructuredField) (m : List (String × List String)),
      (∀ e ∈ m, EntryGood e) → (∀ f ∈ fs, FieldGood f) →
      ∀ e ∈ fs.foldl mergeStep m, EntryGood e := by
  intro fs
  induction fs with
  | nil => intro m hm _; exact hm
  | cons f fs ih =>
    intro m hm hfs
    exact ih _ (mergeStep_good m f hm (hfs f (List.mem_cons_self f fs)))
      (fun g hg => hfs g (List.mem_cons_of_mem f hg))

/-- Every entry of `mergeFields` over good fields is good. -/
theorem mergeFields_good (fields : List StructuredField)
    (hf : ∀ f ∈ fields, FieldGood f) : ∀ e ∈ mergeFields fields, EntryGood e :=
  foldl_mergeStep_good fields [] (fun e he => absurd he (List.not_mem_nil e)) hf

/-- Fields recorded by the extraction loop are good. -/
theorem extractLoopF_fieldGood (fuel : Nat) (cs : List Char) (f : StructuredField)
    (h : f ∈ extractLoopF fuel cs) : FieldGood f :=
  ⟨(extractLoopF_fields_good fuel cs f h).1, extractLoopF_values_ne fuel cs f h,
    (extractLoopF_fields_good fuel cs f h).2⟩

/-- Merging fields whose keys are fresh and pairwise distinct appends their
(key, values) pairs. -/
theorem foldl_mergeStep_fresh :
    ∀ (fs : List StructuredField) (m : List (String × List String)),
      (∀ f ∈ fs, f.key ∉ m.map Prod.fst) → (fs.map (fun f => f.key)).Nodup →
      fs.foldl mergeStep m = m ++ fs.map (fun f => (f.key, f.values)) := by
  intro fs
  induction fs with
  | nil => intro m _ _; simp
  | cons f fs ih =>
    intro m hfresh hnd
    obtain ⟨hf1, hnd2⟩ := List.nodup_cons.mp hnd
    have hstep : mergeStep m f = m ++ [(f.key, f.values)] := by
      unfold mergeStep
      rw [if_neg ?hc]
      case hc =>
        intro hcont
        exact hfresh f (List.mem_cons_self f fs) ((contains_iff_mem _ _).mp hcont)
    show fs.foldl mergeStep (mergeStep m f) = _
    rw [hstep, ih (m ++ [(f.key, f.values)]) ?h1 hnd2]
    case h1 =>
      intro g hg hgm
      rw [List.map_append, List.mem_append] at hgm
      rcases hgm with hgm1 | hgm2
      · exact hfresh g (List.mem_cons_of_mem f hg) hgm1
      · have hgk : g.key = f.key := by simpa using hgm2
        have hgmem : g.key ∈ List.map (fun f => f.key) fs :=
          List.mem_map_of_mem (fun f => f.key) hg
        rw [hgk] at hgmem
        exact hf1 hgmem
    rw [List.append_assoc]
    rfl

/-- Merging fields with pairwise distinct keys is just projection. -/
theorem mergeFields_of_nodup (fs : List StructuredField)
    (hnd : (fs.map (fun f => f.key)).Nodup) :
    mergeFields fs = fs.map (fun f => (f.key, f.values)) := by
  have h := foldl_mergeStep_fresh fs []
    (fun f _ hm => absurd hm (List.not_mem_nil _)) hnd
  simpa using h

/-- Trimming never lengthens a list. -/
theorem jsTrim_length_le (l : List Char) : (jsTrim l).length ≤ l.length := by
  unfold jsTrim
  rw [List.length_reverse]
  calc ((l.dropWhile jsWs).reverse.dropWhile jsWs).length
      ≤ (l.dropWhile jsWs).reverse.length := dropWhile_length_le jsWs _
    _ = (l.dropWhile jsWs).length := List.length_reverse _
    _ ≤ l.length := dropWhile_length_le jsWs _

/-- The first character of a trimmed list is not whitespace. -/
theorem jsTrim_head_not_ws (l : List Char) (c : Char)
    (h : (jsTrim l).head? = some c) : jsWs c = false := by
  unfold jsTrim at h
  rw [List.head?_reverse] at h
  cases hr : (l.dropWhile jsWs).reverse.dropWhile jsWs with
  | nil => rw [hr] at h; simp at h
  | cons a r =>
    rw [hr] at h
    have hsuf : (l.dropWhile jsWs).reverse =
        (l.dropWhile jsWs).reverse.takeWhile jsWs ++ (a :: r) := by
      rw [← hr, List.takeWhile_append_dropWhile]
    have hlast : (l.dropWhile jsWs).reverse.getLast? = some c := by
      rw [hsuf, getLast?_append_right _ _ (List.cons_ne_nil a r)]
      exact h
    rw [List.getLast?_reverse] at hlast
    cases hdc : l.dropWhile jsWs with
    | nil => rw [hdc] at hlast; simp at hlast
    | cons x xs =>
      rw [hdc] at hlast
      simp only [List.head?_cons, Option.some.injEq] at hlast
      subst hlast
      exact dropWhile_head_false jsWs l x xs hdc

/-- The last character of a trimmed list is not whitespace. -/
theorem jsTrim_last_not_ws (l : List Char) (c : Char)
    (h : (jsTrim l).getLast? = some c) : jsWs c = false := by
  unfold jsTrim at h
  rw [List.getLast?_reverse] at h
  cases hr : (l.dropWhile jsWs).reverse.dropWhile jsWs with
  | nil => rw [hr] at h; simp at h
  | cons a r =>
    rw [hr] at h
    simp only [List.head?_cons, Option.some.injEq] at h
    subst h
    exact dropWhile_head_false jsWs _ a r hr

/-- Two head modifications compose. -/
theorem modifyHead_modifyHead (f g : α → α) (l : List α) :
    (l.modifyHead f).modifyHead g = l.modifyHead (fun x => g (f x)) := by
  cases l <;> rfl

/-- Prepending delimiter-free characters extends the first piece of the
delimiter split. -/
theorem splitDelim_append_no_delim :
    ∀ (v l : List Char), (∀ c ∈ v, delimChar c = false) →
      splitDelim (v ++ l) = (splitDelim l).modifyHead (v ++ ·) := by
  intro v
  induction v with
  | nil =>
    intro l _
    show splitDelim l = (splitDelim l).modifyHead (fun x => [] ++ x)
    cases splitDelim l with
    | nil => rfl
    | cons a r => rfl
  | cons c v ih =>
    intro l h
    have hc : delimChar c = false := h c (List.mem_cons_self c v)
    have h2 : ∀ x ∈ v, delimChar x = false := fun x hx => h x (List.mem_cons_of_mem c hx)
    show splitDelim (c :: (v ++ l)) = _
    simp only [splitDelim]
    rw [if_neg (by simp [hc]), ih l h2, modifyHead_modifyHead]
    rfl

/-- Splitting a comma-space join of delimiter-free pieces recovers the
pieces (later pieces keep the space left by the comma split). -/
theorem splitDelim_join :
    ∀ (rest : List (List Char)) (v : List Char),
      (∀ c ∈ v, delimChar c = false) →
      (∀ z ∈ rest, ∀ c ∈ z, delimChar c = false) →
      splitDelim (joinChars [',', ' '] (v :: rest)) =
        v :: rest.map (fun z => ' ' :: z) := by
  intro rest
  induction rest with
  | nil =>
    intro v hv _
    show splitDelim v = [v]
    exact splitDelim_no_delim v hv
  | cons y rest ih =>
    intro v hv hrest
    have hy : ∀ c ∈ y, delimChar c = false := hrest y (List.mem_cons_self y rest)
    have hrest2 : ∀ z ∈ rest, ∀ c ∈ z, delimChar c = false :=
      fun z hz => hrest z (List.mem_cons_of_mem y hz)
    rw [joinChars_cons_cons, List.append_assoc,
      splitDelim_append_no_delim v _ hv]
    have hstep : splitDelim ([',', ' '] ++ joinChars [',', ' '] (y :: rest)) =
        [] :: (splitDelim (joinChars [',', ' '] (y :: rest))).modifyHead (' ' :: ·) := by
      show splitDelim (',' :: ' ' :: joinChars [',', ' '] (y :: rest)) = _
      simp only [splitDelim]
      rw [if_pos (by decide), if_neg (by decide)]
    rw [hstep, ih y hy hrest2]
    show (v ++ []) :: (' ' :: y) :: rest.map (fun z => ' ' :: z) =
      v :: (y :: rest).map (fun z => ' ' :: z)
    rw [List.append_nil]
    rfl

/-- A good value starts with a non-whitespace character. -/
theorem goodValue_head_not_ws (v : List Char) (hg : GoodValue v) :
    ∀ c, v.head? = some c → jsWs c = false := by
  intro c h
  exact jsTrim_head_not_ws v c (by rw [hg.2.1]; exact h)

/-- A good value ends with a non-whitespace character. -/
theorem goodValue_last_not_ws (v : List Char) (hg : GoodValue v) :
    ∀ c, v.getLast? = some c → jsWs c = false := by
  intro c h
  exact jsTrim_last_not_ws v c (by rw [hg.2.1]; exact h)

/-- A comma-space join of good values is its own trim. -/
theorem joinVals_trim (v0 : List Char) (vs : List (List Char))
    (hall : ∀ z ∈ v0 :: vs, GoodValue z) :
    jsTrim (joinChars [',', ' '] (v0 :: vs)) = joinChars [',', ' '] (v0 :: vs) := by
  have hne0 : v0 ≠ [] := (hall v0 (List.mem_cons_self v0 vs)).1
  refine jsTrim_of_ends _ ?_ ?_
  · intro c hc
    rw [joinChars_head [',', ' '] v0 vs hne0] at hc
    exact goodValue_head_not_ws v0 (hall v0 (List.mem_cons_self v0 vs)) c hc
  · intro c hc
    obtain ⟨z, hz, hcz⟩ := joinChars_last_mem [',', ' '] v0 vs c
      (fun z hz => (hall z hz).1) hc
    exact goodValue_last_not_ws z (hall z hz) c hcz

/-- `splitValues` on a serialized value line recovers exactly the values. -/
theorem splitValuesL_line :
    ∀ (vs : List (List Char)), vs ≠ [] → (∀ z ∈ vs, GoodValue z) →
      (vs.length = 1 → ∀ z ∈ vs, (andOrSplit z).length = 1) →
      splitValuesL (joinChars [',', ' '] vs) = vs := by
  intro vs
  match vs with
  | [] => intro h _ _; exact absurd rfl h
  | [v] =>
    intro _ hgood hsafe
    have hv : GoodValue v := hgood v (List.mem_cons_self v [])
    show splitValuesL (joinChars [',', ' '] [v]) = [v]
    have hj : joinChars [',', ' '] [v] = v := rfl
    rw [hj]
    simp only [splitValuesL]
    have hsd : splitDelim v = [v] :=
      splitDelim_no_delim v (fun c hc => (hv.2.2 c hc).1)
    rw [hsd]
    have hmap : ([v]).map jsTrim = [v] := by
      show [jsTrim v] = [v]
      rw [hv.2.1]
    rw [hmap, if_pos (by simp)]
    have hlen : (andOrSplit v).length = 1 := hsafe rfl v (List.mem_cons_self v [])
    have ha : andOrSplit v = [v] := andOrSplitF_len_one (v.length + 1) v hlen
    rw [ha, hmap]
    simp [hv.1]
  | v :: y :: rest =>
    intro _ hgood _
    have hv : GoodValue v := hgood v (List.mem_cons_self _ _)
    show splitValuesL (joinChars [',', ' '] (v :: y :: rest)) = v :: y :: rest
    simp only [splitValuesL]
    have hsd : splitDelim (joinChars [',', ' '] (v :: y :: rest)) =
        v :: (y :: rest).map (fun z => ' ' :: z) :=
      splitDelim_join (y :: rest) v (fun c hc => (hv.2.2 c hc).1)
        (fun z hz c hc => ((hgood z (List.mem_cons_of_mem v hz)).2.2 c hc).1)
    rw [hsd]
    have hmap : ((v :: (y :: rest).map (fun z => ' ' :: z)).map jsTrim) =
        v :: y :: rest := by
      rw [List.map_cons, hv.2.1, List.map_map]
      have hcong : ∀ z ∈ y :: rest, (jsTrim ∘ (fun w => ' ' :: w)) z = id z := by
        intro z hz
        show jsTrim (' ' :: z) = z
        rw [jsTrim_cons_ws ' ' z (by decide)]
        exact (hgood z (List.mem_cons_of_mem v hz)).2.1
      rw [List.map_congr_left hcong, List.map_id]
    rw [hmap, if_neg (by simp only [List.length_cons]; omega)]
    refine List.filter_eq_self.mpr ?_
    intro z hz
    exact decide_eq_true (hgood z hz).1

/-- `afterColon` on a value span followed by a line break (or end of input)
captures exactly the span. -/
theorem afterColon_inner (V rest : List Char) (hne : V ≠ [])
    (hhead : ∀ c, V.head? = some c → jsWs c = false)
    (hall : ∀ c ∈ V, notSemiNl c = true)
    (hrest : ∀ c, rest.head? = some c → notSemiNl c = false) :
    afterColon (V ++ rest) = some (V, rest) := by
  cases V with
  | nil => exact absurd rfl hne
  | cons c V2 =>
    have hc : jsWs c = false := hhead c rfl
    have hcn : notSemiNl c = true := hall c (List.mem_cons_self c V2)
    obtain ⟨ht, hd⟩ := takeWhile_all_append notSemiNl (c :: V2) rest hall hrest
    show afterColon (c :: (V2 ++ rest)) = some (c :: V2, rest)
    simp only [afterColon]
    rw [if_neg (by simp [hc]), if_pos (by simp [hcn])]
    have ht2 : (c :: (V2 ++ rest)).takeWhile notSemiNl = c :: V2 := ht
    have hd2 : (c :: (V2 ++ rest)).dropWhile notSemiNl = rest := hd
    rw [ht2, hd2]

/-- `afterColon` after the single serialized space. -/
theorem afterColon_line (V rest : List Char) (hne : V ≠ [])
    (hhead : ∀ c, V.head? = some c → jsWs c = false)
    (hall : ∀ c ∈ V, notSemiNl c = true)
    (hrest : ∀ c, rest.head? = some c → notSemiNl c = false) :
    afterColon (' ' :: (V ++ rest)) = some (V, rest) := by
  simp only [afterColon]
  rw [if_pos (by decide), afterColon_inner V rest hne hhead hall hrest]

/-- `endStar` at the serialized `": "` separator. -/
theorem endStar_line (V rest : List Char) (hne : V ≠ [])
    (hhead : ∀ c, V.head? = some c → jsWs c = false)
    (hall : ∀ c ∈ V, notSemiNl c = true)
    (hrest : ∀ c, rest.head? = some c → notSemiNl c = false) :
    endStar (':' :: ' ' :: (V ++ rest)) = some ([], V, rest) := by
  have hdrop : (':' :: ' ' :: (V ++ rest)).dropWhile jsWs =
      ':' :: ' ' :: (V ++ rest) := by
    rw [List.dropWhile_cons, if_neg (by decide)]
  unfold endStar
  rw [hdrop]
  have hcond : (':' :: ' ' :: (V ++ rest)).head? = some ':' := rfl
  rw [if_pos hcond]
  show (afterColon (' ' :: (V ++ rest))).map (fun p => ([], p.1, p.2)) = _
  rw [afterColon_line V rest hne hhead hall hrest]
  rfl

/-- The greedy star consumes exactly an `ExtShape` extension when a colon
follows it. -/
theorem starThen_ext (ext : List Char) (he : ExtShape ext) :
    ∀ (fuel : Nat) (tail g2 rest : List Char), ext.length < fuel →
      tail.head? = some ':' →
      endStar tail = some ([], g2, rest) →
      starThenF fuel (ext ++ tail) = some (ext, g2, rest) := by
  induction he with
  | nil =>
    intro fuel tail g2 rest hfuel htail hend
    cases fuel with
    | zero => exact absurd hfuel (by omega)
    | succ n =>
      cases tail with
      | nil => simp at htail
      | cons t ts =>
        simp only [List.head?_cons, Option.some.injEq] at htail
        subst htail
        show starThenF (n + 1) (':' :: ts) = some ([], g2, rest)
        simp only [starThenF]
        have h1 : (':' :: ts).takeWhile jsWs = [] := by
          rw [List.takeWhile_cons, if_neg (by decide)]
        rw [h1, if_neg (by simp)]
        exact hend
  | step sp w e hs halls hw hallw he2 ih =>
    intro fuel tail g2 rest hfuel htail hend
    cases fuel with
    | zero => exact absurd hfuel (by omega)
    | succ n =>
      have hwhead : ∀ c, (w ++ (e ++ tail)).head? = some c → jsWs c = false := by
        intro c hc
        rw [head?_append_left w _ hw] at hc
        cases hwd : w with
        | nil => exact absurd hwd hw
        | cons a as =>
          rw [hwd] at hc
          simp only [List.head?_cons, Option.some.injEq] at hc
          subst hc
          exact wordChar_not_ws a (hallw a (by rw [hwd]; exact List.mem_cons_self a as))
      obtain ⟨hts, hds⟩ := takeWhile_all_append jsWs sp (w ++ (e ++ tail)) halls hwhead
      have hehead : ∀ c, (e ++ tail).head? = some c → wordChar c = false := by
        intro c hc
        cases hed : e with
        | nil =>
          rw [hed] at hc
          rw [List.nil_append] at hc
          rw [htail] at hc
          cases hc
          decide
        | cons a as =>
          rw [hed] at hc
          rw [head?_append_left _ _ (List.cons_ne_nil a as)] at hc
          simp only [List.head?_cons, Option.some.injEq] at hc
          subst hc
          exact ws_not_word a (extShape_head_ws e he2 a (by rw [hed]; rfl))
      obtain ⟨htw, hdw⟩ := takeWhile_all_append wordChar w (e ++ tail) hallw hehead
      have hlen : e.length < n := by
        have h1 : 1 ≤ sp.length := List.length_pos.mpr hs
        have h2 : 1 ≤ w.length := List.length_pos.mpr hw
        have h3 : (sp ++ w ++ e).length = sp.length + w.length + e.length := by
          rw [List.length_append, List.length_append]
        omega
      have hrec := ih n tail g2 rest hlen htail hend
      show starThenF (n + 1) ((sp ++ w ++ e) ++ tail) = some (sp ++ w ++ e, g2, rest)
      have harr : (sp ++ w ++ e) ++ tail = sp ++ (w ++ (e ++ tail)) := by
        rw [List.append_assoc, List.append_assoc]
      rw [harr]
      simp only [starThenF]
      rw [hts, hds, htw, hdw]
      rw [if_pos ⟨hs, hw⟩]
      rw [hrec]

/-- `matchFrom` on a serialized `key: values` line matches the whole key and
captures the whole value span. -/
theorem matchFrom_line (K tail g2 rest : List Char) (hk : KeyGood K)
    (htail : tail.head? = some ':')
    (hend : endStar tail = some ([], g2, rest)) :
    matchFrom (K ++ tail) = some (K, g2, rest) := by
  obtain ⟨w0, ext, hK, hw0, hallw, hext⟩ := hk
  have hehead : ∀ c, (ext ++ tail).head? = some c → wordChar c = false := by
    intro c hc
    cases hed : ext with
    | nil =>
      rw [hed, List.nil_append, htail] at hc
      cases hc
      decide
    | cons a as =>
      rw [hed, head?_append_left _ _ (List.cons_ne_nil a as)] at hc
      simp only [List.head?_cons, Option.some.injEq] at hc
      subst hc
      exact ws_not_word a (extShape_head_ws ext hext a (by rw [hed]; rfl))
  obtain ⟨htw, hdw⟩ := takeWhile_all_append wordChar w0 (ext ++ tail) hallw hehead
  have harr : K ++ tail = w0 ++ (ext ++ tail) := by rw [hK, List.append_assoc]
  rw [harr]
  simp only [matchFrom]
  rw [htw, hdw, if_neg hw0]
  have hfuel : ext.length < (w0 ++ (ext ++ tail)).length + 1 := by
    rw [List.length_append, List.length_append]
    omega
  rw [starThen_ext ext hext _ tail g2 rest hfuel htail hend]
  subst hK
  rfl

/-- `findMatch` succeeds immediately when the pattern matches at the first
character. -/
theorem findMatch_cons_some (c : Char) (cs label g2 rest : List Char)
    (h : matchFrom (c :: cs) = some (label, g2, rest)) :
    findMatch (c :: cs) = some (c :: cs, label, g2, rest) := by
  simp only [findMatch]
  rw [h]

/-- `matchFrom` fails at a non-word character. -/
theorem matchFrom_head_not_word (c : Char) (cs : List Char)
    (h : wordChar c = false) : matchFrom (c :: cs) = none := by
  simp only [matchFrom]
  have h1 : (c :: cs).takeWhile wordChar = [] := by
    rw [List.takeWhile_cons, if_neg (by simp [h])]
  rw [h1]
  simp

/-- The extraction loop yields nothing on empty input. -/
theorem extractLoopF_nil : ∀ fuel : Nat, extractLoopF fuel [] = [] := by
  intro fuel
  cases fuel with
  | zero => rfl
  | succ n => rfl

/-- The extraction loop only looks at the input through `findMatch`. -/
theorem extractLoopF_eq_of_findMatch (fuel : Nat) (l1 l2 : List Char)
    (h : findMatch l1 = findMatch l2) :
    extractLoopF (fuel + 1) l1 = extractLoopF (fuel + 1) l2 := by
  rw [extractLoopF, extractLoopF, h]

/-- A character at which the pattern cannot start is skipped. -/
theorem extractLoopF_skip (fuel : Nat) (c : Char) (cs : List Char)
    (h : matchFrom (c :: cs) = none) :
    extractLoopF (fuel + 1) (c :: cs) = extractLoopF (fuel + 1) cs := by
  refine extractLoopF_eq_of_findMatch fuel _ _ ?_
  simp only [findMatch]
  rw [h]

/-- One serialized line at the head of the input yields exactly its entry's
field and continues after the line. -/
theorem extractLoop_line_step (E : String × List String) (rest : List Char)
    (hE : EntryGood E)
    (hsafeE : E.2.length = 1 → ∀ v ∈ E.2, (andOrSplit v.data).length = 1)
    (hrest : ∀ c, rest.head? = some c → notSemiNl c = false)
    (fuel : Nat) :
    extractLoopF (fuel + 1) (mergedLine E ++ rest) =
      StructuredField.mk E.1 E.2 (String.mk (mergedLine E)) ::
        extractLoopF fuel rest := by
  obtain ⟨hkey, hne, hvals⟩ := hE
  cases hvs : E.2.map String.data with
  | nil => exact absurd (List.map_eq_nil_iff.mp hvs) hne
  | cons v0 vrest =>
    have hgoodall : ∀ z ∈ v0 :: vrest, GoodValue z := by
      intro z hz
      rw [← hvs] at hz
      obtain ⟨v, hv, rfl⟩ := List.mem_map.mp hz
      exact hvals v hv
    have hv0ne : v0 ≠ [] := (hgoodall v0 (List.mem_cons_self v0 vrest)).1
    have hVne : joinChars [',', ' '] (E.2.map String.data) ≠ [] := by
      rw [hvs]
      exact joinChars_ne_nil [',', ' '] v0 vrest hv0ne
    have hVhead : ∀ c, (joinChars [',', ' '] (E.2.map String.data)).head? = some c →
        jsWs c = false := by
      intro c hc
      rw [hvs, joinChars_head [',', ' '] v0 vrest hv0ne] at hc
      exact goodValue_head_not_ws v0 (hgoodall v0 (List.mem_cons_self v0 vrest)) c hc
    have hVall : ∀ c ∈ joinChars [',', ' '] (E.2.map String.data), notSemiNl c = true := by
      intro c hc
      rw [hvs] at hc
      rcases joinChars_mem [',', ' '] (v0 :: vrest) c hc with hsep | ⟨z, hz, hcz⟩
      · have hcc : c = ',' ∨ c = ' ' := by simpa using hsep
        rcases hcc with rfl | rfl
        · decide
        · decide
      · exact ((hgoodall z hz).2.2 c hcz).2
    have hVtrim : jsTrim (joinChars [',', ' '] (E.2.map String.data)) =
        joinChars [',', ' '] (E.2.map String.data) := by
      rw [hvs]
      exact joinVals_trim v0 vrest hgoodall
    have hline : splitValuesL (joinChars [',', ' '] (E.2.map String.data)) =
        E.2.map String.data := by
      refine splitValuesL_line (E.2.map String.data) ?_ ?_ ?_
      · intro h
        exact hne (List.map_eq_nil_iff.mp h)
      · intro z hz
        obtain ⟨v, hv, rfl⟩ := List.mem_map.mp hz
        exact hvals v hv
      · intro hlen z hz
        rw [List.length_map] at hlen
        obtain ⟨v, hv, rfl⟩ := List.mem_map.mp hz
        exact hsafeE hlen v hv
    have hend : endStar (':' :: ' ' ::
        (joinChars [',', ' '] (E.2.map String.data) ++ rest)) =
        some ([], joinChars [',', ' '] (E.2.map String.data), rest) :=
      endStar_line _ rest hVne hVhead hVall hrest
    have hmf : matchFrom (E.1.data ++ (':' :: ' ' ::
        (joinChars [',', ' '] (E.2.map String.data) ++ rest))) =
        some (E.1.data, joinChars [',', ' '] (E.2.map String.data), rest) :=
      matchFrom_line E.1.data _ _ rest hkey rfl hend
    have harr : mergedLine E ++ rest = E.1.data ++ (':' :: ' ' ::
        (joinChars [',', ' '] (E.2.map String.data) ++ rest)) := by
      show (E.1.data ++ ':' :: ' ' :: joinChars [',', ' '] (E.2.map String.data)) ++ rest = _
      rw [List.append_assoc, List.cons_append, List.cons_append]
    cases hT : mergedLine E ++ rest with
    | nil =>
      exfalso
      rw [harr] at hT
      simp at hT
    | cons c cs =>
      have hmatch : matchFrom (c :: cs) =
          some (E.1.data, joinChars [',', ' '] (E.2.map String.data), rest) := by
        rw [← hT, harr]
        exact hmf
      rw [extractLoopF, findMatch_cons_some c cs _ _ _ hmatch, ← hT]
      show (if splitValuesL (jsTrim (joinChars [',', ' '] (E.2.map String.data))) ≠ [] then
          [StructuredField.mk (String.mk (jsTrim E.1.data))
            ((splitValuesL (jsTrim (joinChars [',', ' '] (E.2.map String.data)))).map
              String.mk)
            (String.mk ((mergedLine E ++ rest).take
              ((mergedLine E ++ rest).length - rest.length)))]
         else []) ++ extractLoopF fuel rest = _
      rw [hVtrim, hline]
      rw [if_pos (show E.2.map String.data ≠ [] from
        fun h => hne (List.map_eq_nil_iff.mp h))]
      rw [keyGood_trim E.1.data hkey]
      have hvals2 : (E.2.map String.data).map String.mk = E.2 := by
        rw [List.map_map]
        have hid : ∀ v ∈ E.2, (String.mk ∘ String.data) v = id v := fun v _ => rfl
        rw [List.map_congr_left hid, List.map_id]
      rw [hvals2]
      have htake : (mergedLine E ++ rest).take
          ((mergedLine E ++ rest).length - rest.length) = mergedLine E := by
        rw [List.length_append, Nat.add_sub_cancel, List.take_left]
      rw [htake]
      rfl

/-- Re-extraction of the serialized merged table yields one field per entry,
with the entry's key, its values, and the line as raw text. -/
theorem extractLoopF_serialized :
    ∀ (M : List (String × List String)), (∀ e ∈ M, EntryGood e) →
      (∀ e ∈ M, e.2.length = 1 → ∀ v ∈ e.2, (andOrSplit v.data).length = 1) →
      ∀ fuel : Nat, (joinChars ['\n'] (M.map mergedLine)).length < fuel →
      extractLoopF fuel (joinChars ['\n'] (M.map mergedLine)) =
        M.map (fun e => StructuredField.mk e.1 e.2 (String.mk (mergedLine e))) := by
  intro M
  induction M with
  | nil =>
    intro _ _ fuel _
    exact extractLoopF_nil fuel
  | cons E M ih =>
    intro hgood hsafe fuel hfuel
    have hE := hgood E (List.mem_cons_self E M)
    have hsafeE := hsafe E (List.mem_cons_self E M)
    cases M with
    | nil =>
      have hj : joinChars ['\n'] ([E].map mergedLine) = mergedLine E := rfl
      cases fuel with
      | zero => exact absurd hfuel (Nat.not_lt_zero _)
      | succ n =>
        show extractLoopF (n + 1) (joinChars ['\n'] ([E].map mergedLine)) = _
        rw [hj]
        have hstep := extractLoop_line_step E [] hE hsafeE
          (by intro c hc; simp at hc) n
        rw [List.append_nil] at hstep
        rw [hstep, extractLoopF_nil n]
        rfl
    | cons F M2 =>
      have hj : joinChars ['\n'] ((E :: F :: M2).map mergedLine) =
          mergedLine E ++ '\n' :: joinChars ['\n'] ((F :: M2).map mergedLine) := by
        show joinChars ['\n'] (mergedLine E :: mergedLine F :: M2.map mergedLine) = _
        rw [joinChars_cons_cons, List.append_assoc, List.cons_append, List.nil_append]
        rfl
      cases fuel with
      | zero => exact absurd hfuel (Nat.not_lt_zero _)
      | succ n =>
        rw [hj] at hfuel ⊢
        have hrestnl : ∀ c,
            ('\n' :: joinChars ['\n'] ((F :: M2).map mergedLine)).head? = some c →
            notSemiNl c = false := by
          intro c hc
          simp only [List.head?_cons, Option.some.injEq] at hc
          subst hc
          decide
        rw [extractLoop_line_step E
          ('\n' :: joinChars ['\n'] ((F :: M2).map mergedLine)) hE hsafeE hrestnl n]
        have hlen2 : (joinChars ['\n'] ((F :: M2).map mergedLine)).length < n := by
          rw [List.length_append, List.length_cons] at hfuel
          omega
        obtain ⟨m, rfl⟩ : ∃ m, n = m + 1 := ⟨n - 1, by omega⟩
        rw [extractLoopF_skip m '\n' _ (matchFrom_head_not_word '\n' _ (by decide))]
        rw [ih (fun e he => hgood e (List.mem_cons_of_mem E he))
          (fun e he => hsafe e (List.mem_cons_of_mem E he)) (m + 1) hlen2]
        rfl

/-- C4: round-trip idempotence of structured extraction.  For any document
text, serializing the merged field table back to one `key: v1, v2, v3` line
per key and re-running `extractFields` followed by `mergeFields` yields the
same table — provided no key's merged value list is a single value that the
"and"/"or" fallback split of `splitValues` would break apart (the claim as
stated, without this proviso, is refuted by `c4_counterexample`). -/
theorem c4_roundtrip (text : String)
    (hsafe : ∀ p ∈ mergeFields (extractFields text), p.2.length = 1 →
      ∀ v ∈ p.2, (andOrSplit v.data).length = 1) :
    mergeFields (extractFields (serializeMerged (mergeFields (extractFields text)))) =
      mergeFields (extractFields text) := by
  have hgood : ∀ e ∈ mergeFields (extractFields text), EntryGood e :=
    mergeFields_good (extractFields text)
      (fun f hf => extractLoopF_fieldGood _ _ f hf)
  have hser : extractFields (serializeMerged (mergeFields (extractFields text))) =
      (mergeFields (extractFields text)).map
        (fun e => StructuredField.mk e.1 e.2 (String.mk (mergedLine e))) := by
    show extractLoopF
      ((joinChars ['\n'] ((mergeFields (extractFields text)).map mergedLine)).length + 1)
      (joinChars ['\n'] ((mergeFields (extractFields text)).map mergedLine)) = _
    exact extractLoopF_serialized (mergeFields (extractFields text)) hgood hsafe _
      (Nat.lt_succ_self _)
  have hkeys : ((mergeFields (extractFields text)).map
      (fun e => StructuredField.mk e.1 e.2 (String.mk (mergedLine e)))).map
      (fun f => f.key) = (mergeFields (extractFields text)).map Prod.fst := by
    rw [List.map_map]
    rfl
  have hnd : (((mergeFields (extractFields text)).map
      (fun e => StructuredField.mk e.1 e.2 (String.mk (mergedLine e)))).map
      (fun f => f.key)).Nodup := by
    rw [hkeys]
    exact mergeFields_keys_nodup (extractFields text)
  rw [hser, mergeFields_of_nodup _ hnd, List.map_map]
  have hid : ∀ e ∈ mergeFields (extractFields text),
      ((fun f : StructuredField => (f.key, f.values)) ∘
        (fun e : String × List String =>
          StructuredField.mk e.1 e.2 (String.mk (mergedLine e)))) e = id e :=
    fun e _ => rfl
  rw [List.map_congr_left hid, List.map_id]

/-- Witness for `c4_roundtrip`: on `"Name: Alice\nCountry: India, US"` the
proviso holds and the round trip is the identity. -/
theorem c4_roundtrip_witness :
    (∀ p ∈ mergeFields (extractFields "Name: Alice\nCountry: India, US"),
      p.2.length = 1 → ∀ v ∈ p.2, (andOrSplit v.data).length = 1) ∧
    mergeFields (extractFields (serializeMerged (mergeFields
      (extractFields "Name: Alice\nCountry: India, US")))) =
      mergeFields (extractFields "Name: Alice\nCountry: India, US") :=
  ⟨by decide, c4_roundtrip "Name: Alice\nCountry: India, US" (by decide)⟩

/-- C4, claim as stated, refuted: on `"Key: x and y,"` the first extraction
merges to the single value `"x and y"` (the trailing comma makes the raw
delimiter split two-piece, so the "and" fallback is skipped), but
re-extracting its serialization `"Key: x and y"` splits on the word "and":
the key set is unchanged while the value sets differ. -/
theorem c4_counterexample :
    mergeFields (extractFields "Key: x and y,") = [("Key", ["x and y"])] ∧
    mergeFields (extractFields (serializeMerged (mergeFields
      (extractFields "Key: x and y,")))) = [("Key", ["x", "y"])] ∧
    ¬ ("x and y" ∈ ["x", "y"]) := by
  refine ⟨by decide, by decide, by decide⟩

end MLNode
